import Mathlib

/-!
Verification development for the semantic chunking core of the repository
(src/src/core/embeddings/chunker.py).

Modelling conventions:
* Text is a list of characters (`Str := List Char`); Python slices, `strip`
  and regex scans are modelled as executable functions on character lists.
* The tokenizer (tiktoken in the source) is an injected capability: a
  structure bundling a token-counting function with the facts used by the
  token-arithmetic proofs (count of the empty text is 0, and counting is
  additive across a single-space join, which holds for word-like counters;
  the concrete instance used for evaluation counts non-whitespace
  characters).
* The md5 content hash is modelled by an injective stand-in: the content
  itself (the spec treats hash collisions as genuine duplicates by design,
  so an injective hash is the intended semantics).
* Python dataclass equality is structural equality of the modelled fields;
  the `created_at` timestamp in chunk metadata is omitted (the embedding is
  deterministic).
-/

namespace Tldrify

/-- Text is modelled as a list of characters. -/
abbrev Str := List Char

/-- Python whitespace (the characters stripped by str.strip and matched by
regex \s, restricted to ASCII). -/
def isPyWs (c : Char) : Bool :=
  c = ' ' || c = '\t' || c = '\n' || c = '\r' || c = '\x0b' || c = '\x0c'

/-- Python str.lstrip(). -/
def pyLStrip (s : Str) : Str := s.dropWhile isPyWs

/-- Python str.rstrip(). -/
def pyRStrip (s : Str) : Str := (s.reverse.dropWhile isPyWs).reverse

/-- Python str.strip(). -/
def pyStrip (s : Str) : Str := pyRStrip (pyLStrip s)

/-- Python slice text[a:b] (for a ≤ b). -/
def slice (s : Str) (a b : Nat) : Str := (s.drop a).take (b - a)

/-- Python enumerate starting at index i. -/
def enumFromIdx {α : Type} (i : Nat) : List α → List (Nat × α)
  | [] => []
  | c :: rest => (i, c) :: enumFromIdx (i + 1) rest

/-- A concrete tokenizer used for evaluation: the number of non-whitespace
characters.  It is exactly additive across a single-space join, which makes
it a clean instance of the injected token-counting capability. -/
def nonSpaceCount (s : Str) : Nat := (s.filter (fun c => !isPyWs c)).length

/-- The injected token-counting capability (tiktoken in the source, source
lines 182-184).  `tok_space_add` is the additivity across a single-space
join used to relate the token count of a chunk's joined content to the
per-sentence counts the algorithm accumulates. -/
structure Tokenizer where
  tok : Str → Nat
  tok_nil : tok [] = 0
  tok_space_add : ∀ a b : Str, tok (a ++ ' ' :: b) = tok a + tok b

/-- The non-whitespace-character tokenizer as a `Tokenizer`. -/
def nscTok : Tokenizer where
  tok := nonSpaceCount
  tok_nil := rfl
  tok_space_add := by
    intro a b
    simp [nonSpaceCount, List.filter_append, List.filter_cons, isPyWs]

/-- A sentence span produced by `_split_into_sentences` (source lines
335-364): the stripped text together with the [start, end) span of the
slice it was taken from. -/
structure Sentence where
  text : Str
  start : Nat
  end_ : Nat
deriving DecidableEq, Repr, Inhabited

/-- The ends of successive matches of the regex ([.!?])\s+ over the text
(re.finditer in source line 338-342): a sentence-ending punctuation
character followed by a maximal non-empty run of whitespace; scanning
resumes after each match.  `pos` is the absolute position of the head of
the remaining text. -/
def fbeGo : Nat → Str → Nat → List Nat
  | 0, _, _ => []
  | _, [], _ => []
  | fuel + 1, c :: rest, pos =>
    if (c = '.' ∨ c = '!' ∨ c = '?') ∧ rest.takeWhile isPyWs ≠ [] then
      let w := (rest.takeWhile isPyWs).length
      (pos + 1 + w) :: fbeGo fuel (rest.drop w) (pos + 1 + w)
    else
      fbeGo fuel rest (pos + 1)

/-- Entry point of the boundary scan; the fuel argument of `fbeGo` only
bounds the recursion depth (each step consumes at least one character), so
the length of the text is always enough. -/
def findBoundaryEnds (s : Str) (pos : Nat) : List Nat := fbeGo s.length s pos

/-- SemanticChunker._split_into_sentences (source lines 335-364): for each
boundary match emit the stripped slice since the previous position (if
non-empty) with its span, then emit the stripped remaining text as a final
span ending at end-of-text. -/
def splitStep (text : Str) (st : List Sentence × Nat) (e : Nat) : List Sentence × Nat :=
  let t := pyStrip (slice text st.2 e)
  (st.1 ++ (if t ≠ [] then [⟨t, st.2, e⟩] else []), e)

def splitIntoSentences (text : Str) : List Sentence :=
  let ends := findBoundaryEnds text 0
  let res := ends.foldl (splitStep text) ([], 0)
  if res.2 < text.length then
    let rem := pyStrip (text.drop res.2)
    if rem ≠ [] then res.1 ++ [⟨rem, res.2, text.length⟩] else res.1
  else res.1

/-- Backtick character (used by the code-fence marker). -/
def backquote : Char := Char.ofNat 96

/-- The code-fence marker (three backticks). -/
def codeFence : Str := [backquote, backquote, backquote]

/-- Python substring containment (`pat in s`); the empty pattern is
contained in everything, as in Python. -/
def containsSeq (pat : Str) : Str → Bool
  | [] => pat.isEmpty
  | s :: rest => pat.isPrefixOf (s :: rest) || containsSeq pat rest

/-- Chunking configuration (source lines 14-24).  The dataclass performs no
validation of its fields. -/
structure ChunkConfig where
  min_tokens : Nat := 1000
  max_tokens : Nat := 2000
  overlap_tokens : Nat := 200
  respect_sentence_boundaries : Bool := true
  respect_paragraph_boundaries : Bool := true
  detect_structure : Bool := true
  enable_deduplication : Bool := true
deriving DecidableEq, Repr

/-- Chunk metadata (the dict stored on a TextChunk).  Leaf chunks carry the
has_code / has_list / has_table flags (source lines 417-424); parent chunks
carry is_parent = true plus a child count (source line 469).  The
created_at timestamp is omitted (deterministic embedding). -/
inductive Metadata where
  | empty : Metadata
  | leaf (has_code has_list has_table : Bool) : Metadata
  | parentInfo (child_count : Nat) : Metadata
deriving DecidableEq, Repr

/-- Tests whether metadata is the parent form (is_parent = true). -/
def Metadata.isParentMeta : Metadata → Bool
  | .parentInfo _ => true
  | _ => false

/-- TextChunk (source lines 27-49).  chunk_hash is the md5 of content in
the source; here the hash is modelled injectively by the content itself
(__post_init__ computes it from content whenever it is not supplied). -/
structure TextChunk where
  content : Str
  chunk_index : Nat
  token_count : Nat
  start_char : Nat
  end_char : Nat
  start_page : Option Nat := none
  end_page : Option Nat := none
  section_title : Option Str := none
  chunk_level : Nat := 0
  parent_chunk_id : Option Nat := none
  metadata : Metadata := Metadata.empty
  chunk_hash : Str := []
deriving DecidableEq, Repr

/-- A structural element extracted by DocumentStructureExtractor (source
lines 90-114). -/
structure StructElem where
  line_num : Nat
  type_ : Str
  level : Nat
  title : Str
  full_text : Str
deriving DecidableEq, Repr

/-- List-item regexes of DocumentStructureExtractor.list_patterns (source
lines 80-85), compiled by hand; each recognises a match of the pattern at
the start of one line.  Pattern 1: ^\s*[-*•]\s+ -/
def bulletItemAt (l : Str) : Bool :=
  match l.dropWhile isPyWs with
  | c :: rest => (c = '-' || c = '*' || c = '•') && !(rest.takeWhile isPyWs).isEmpty
  | [] => false

/-- Pattern 2: ^\s*\d+\.\s+ -/
def numberItemAt (l : Str) : Bool :=
  let afterWs := l.dropWhile isPyWs
  let digits := afterWs.takeWhile Char.isDigit
  match digits, afterWs.drop digits.length with
  | _ :: _, '.' :: rest => !(rest.takeWhile isPyWs).isEmpty
  | _, _ => false

/-- Pattern 3: ^\s*[a-z]\)\s+ -/
def letterItemAt (l : Str) : Bool :=
  match l.dropWhile isPyWs with
  | c :: ')' :: rest => ('a' ≤ c && c ≤ 'z') && !(rest.takeWhile isPyWs).isEmpty
  | _ => false

/-- Pattern 4: ^\s*\([a-z]\)\s+ -/
def parenItemAt (l : Str) : Bool :=
  match l.dropWhile isPyWs with
  | '(' :: c :: ')' :: rest => ('a' ≤ c && c ≤ 'z') && !(rest.takeWhile isPyWs).isEmpty
  | _ => false

/-- Python text.split('\n'): the lines of a text, keeping empty lines; the
result always has at least one (possibly empty) line. -/
def splitLines : Str → List Str
  | [] => [[]]
  | c :: rest =>
    if c = '\n' then [] :: splitLines rest
    else
      match splitLines rest with
      | l :: ls => (c :: l) :: ls
      | [] => [[c]]

/-- re.search of any list pattern over the text with re.MULTILINE (used for
metadata.has_list, source lines 420-421): some line starts with a list
item. -/
def hasListItem (text : Str) : Bool :=
  (splitLines text).any (fun l => bulletItemAt l || numberItemAt l || letterItemAt l || parenItemAt l)

/-- metadata.has_table (source line 422): a pipe occurs and more than two
pipes occur in total. -/
def hasTableMark (text : Str) : Bool :=
  text.contains '|' && decide (text.count '|' > 2)

/-- Index of the first element satisfying p (the enumerate-and-break loops
of _create_chunk, source lines 407-415). -/
def firstIdxSat (p : Nat → Bool) : List Nat → Option Nat
  | [] => none
  | b :: rest => if p b then some 0 else (firstIdxSat p rest).map (· + 1)

/-- SemanticChunker._create_chunk (source lines 393-436): resolve the
section title as the most recent structural element whose approximate
position (line_num * 50) is at or before start_char, resolve pages as the
first page-break offset strictly beyond start_char (resp. at or beyond
end_char), 1-indexed, and compute token count and metadata from the final
content.  An absent page_breaks argument is the empty list (Python treats
None and [] alike here). -/
def createChunk (tk : Tokenizer) (structures : List StructElem) (pageBreaks : List Nat)
    (text : Str) (index startChar endChar : Nat) : TextChunk :=
  let sectionTitle := (structures.reverse.find? (fun st => st.line_num * 50 ≤ startChar)).map
    (fun st => st.title)
  let startPage := if pageBreaks ≠ [] then
      (firstIdxSat (fun b => startChar < b) pageBreaks).map (· + 1) else none
  let endPage := if pageBreaks ≠ [] then
      (firstIdxSat (fun b => endChar ≤ b) pageBreaks).map (· + 1) else none
  { content := text
    chunk_index := index
    token_count := tk.tok text
    start_char := startChar
    end_char := endChar
    start_page := startPage
    end_page := endPage
    section_title := sectionTitle
    chunk_level := 0
    parent_chunk_id := none
    metadata := Metadata.leaf (containsSeq codeFence text) (hasListItem text) (hasTableMark text)
    chunk_hash := text }

/-- SemanticChunker._is_good_break_point (source lines 366-391): true at
the last sentence; otherwise true when the current sentence contains a
paragraph break, a structural element's line number is within 1 of the
sentence index, or the sentence contains a block delimiter. -/
def isGoodBreakPoint (i : Nat) (sentences : List Sentence) (structures : List StructElem) : Bool :=
  if sentences.length ≤ i + 1 then true
  else
    let current := sentences.getD i default
    (containsSeq ['\n', '\n'] current.text || List.isSuffixOf ['\n', '\n'] current.text)
    || structures.any (fun st => st.line_num ≤ i + 1 && i ≤ st.line_num + 1)
    || [codeFence, ['-', '-', '-'], ['_', '_', '_'], ['*', '*', '*']].any
        (fun p => containsSeq p current.text)

/-- A chunk of the sliding-window loop before materialization: the window
of sentences it was closed from, its start character and its index.  The
source materializes chunks immediately via _create_chunk, which is a pure
function of the joined window text, the span and the ambient structures
and page breaks; keeping the window makes the emitted windows available to
the theorems, and `slidingWindowChunks` below materializes them exactly as
the source does. -/
structure RawChunk where
  window : List Sentence
  startChar : Nat
  index : Nat
deriving DecidableEq, Repr

/-- Loop state of _create_sliding_window_chunks (source lines 226-232):
emitted chunks, current window, its running token sum, the current chunk
start and the next chunk index. -/
structure SWState where
  chunks : List RawChunk
  current : List Sentence
  tokens : Nat
  startChar : Nat
  index : Nat
deriving DecidableEq, Repr

/-- Greedy overlap selection (source lines 251-260, repeated verbatim at
303-312): walk the window from the most recent sentence backwards,
prepending sentences while the accumulated token count stays within the
budget k, stopping at the first sentence that would exceed it.  Returns
the selected sentences (in document order) and their token sum. -/
def computeOverlapGo (tk : Tokenizer) (k : Nat) :
    List Sentence → List Sentence → Nat → List Sentence × Nat
  | [], acc, t => (acc, t)
  | s :: rest, acc, t =>
    if t + tk.tok s.text ≤ k then
      computeOverlapGo tk k rest (s :: acc) (t + tk.tok s.text)
    else (acc, t)

/-- Greedy overlap seed of a window (see `computeOverlapGo`). -/
def computeOverlap (tk : Tokenizer) (k : Nat) (w : List Sentence) : List Sentence × Nat :=
  computeOverlapGo tk k w.reverse [] 0

/-- Hard cutoff (source lines 238-269): if appending the sentence would
push the window past max_tokens and the window is non-empty, emit the
window and reseed it (overlap seed when overlap_tokens > 0, otherwise an
empty window starting at the incoming sentence). -/
def hardPart (tk : Tokenizer) (cfg : ChunkConfig) (sentence : Sentence) (st : SWState) : SWState :=
  if st.tokens + tk.tok sentence.text > cfg.max_tokens ∧ st.current ≠ [] then
    let st1 : SWState := { st with
      chunks := st.chunks ++ [⟨st.current, st.startChar, st.index⟩]
      index := st.index + 1 }
    if 0 < cfg.overlap_tokens then
      let ov := computeOverlap tk cfg.overlap_tokens st.current
      { st1 with current := ov.1, tokens := ov.2,
                 startChar := if ov.1 ≠ [] then (ov.1.headD default).start else st1.startChar }
    else
      { st1 with current := [], tokens := 0, startChar := sentence.start }
  else st

/-- Append the sentence to the current window (source lines 271-273). -/
def appendPart (tk : Tokenizer) (sentence : Sentence) (st : SWState) : SWState :=
  { st with current := st.current ++ [sentence], tokens := st.tokens + tk.tok sentence.text }

/-- Source lines 275-276: reset the start when the window is empty.  The
window always contains the sentence just appended, so this guard is dead
code; it is kept for fidelity. -/
def emptyGuardPart (sentence : Sentence) (st : SWState) : SWState :=
  if st.current = [] then { st with startChar := sentence.start } else st

/-- Soft cutoff (source lines 279-322): once the window holds at least
min_tokens and the position is a good break point, close it there unless
the next four sentences are together worth less than half of min_tokens
(Python compares against the float min_tokens / 2, i.e. 2r < min).  The
next window is the overlap seed when overlap_tokens > 0 and more sentences
remain, and otherwise starts empty at the next sentence. -/
def softPart (tk : Tokenizer) (cfg : ChunkConfig) (sentences : List Sentence)
    (structures : List StructElem) (i : Nat) (st : SWState) : SWState :=
  if cfg.min_tokens ≤ st.tokens ∧ isGoodBreakPoint i sentences structures = true then
    let remaining := (((sentences.drop (i + 1)).take 4).map (fun s => tk.tok s.text)).sum
    if remaining * 2 < cfg.min_tokens then st
    else
      let st1 : SWState := { st with
        chunks := st.chunks ++ [⟨st.current, st.startChar, st.index⟩]
        index := st.index + 1 }
      if 0 < cfg.overlap_tokens ∧ i + 1 < sentences.length then
        let ov := computeOverlap tk cfg.overlap_tokens st.current
        { st1 with current := ov.1, tokens := ov.2,
                   startChar := if ov.1 ≠ [] then (ov.1.headD default).start else st1.startChar }
      else
        { st1 with current := [], tokens := 0,
                   startChar := if i + 1 < sentences.length then
                       (sentences.getD (i + 1) default).start else st1.startChar }
  else st

/-- One iteration of the sliding-window loop for sentence i (source lines
234-322): hard cutoff, append, (dead) empty guard, soft cutoff. -/
def swStep (tk : Tokenizer) (cfg : ChunkConfig) (sentences : List Sentence)
    (structures : List StructElem) (i : Nat) (st : SWState) : SWState :=
  let sentence := sentences.getD i default
  softPart tk cfg sentences structures i
    (emptyGuardPart sentence (appendPart tk sentence (hardPart tk cfg sentence st)))

/-- The loop over all sentences; `rem` is the suffix of sentences not yet
processed and `i` the index of its head. -/
def swGo (tk : Tokenizer) (cfg : ChunkConfig) (sentences : List Sentence)
    (structures : List StructElem) : List Sentence → Nat → SWState → SWState
  | [], _, st => st
  | _ :: rest, i, st => swGo tk cfg sentences structures rest (i + 1)
      (swStep tk cfg sentences structures i st)

/-- Initial loop state (source lines 229-232). -/
def initState : SWState := ⟨[], [], 0, 0, 0⟩

/-- The emitted windows of _create_sliding_window_chunks: the loop over all
sentences followed by the final flush of a non-empty window (source lines
324-331). -/
def slidingWindowRaws (tk : Tokenizer) (cfg : ChunkConfig) (sentences : List Sentence)
    (structures : List StructElem) : List RawChunk :=
  let fin := swGo tk cfg sentences structures sentences 0 initState
  fin.chunks ++ (if fin.current ≠ [] then [⟨fin.current, fin.startChar, fin.index⟩] else [])

/-- Python ' '.join on a list of texts. -/
def spaceJoin : List Str → Str
  | [] => []
  | [s] => s
  | s :: rest => s ++ ' ' :: spaceJoin rest

/-- The windows' sentence texts joined by single spaces
(' '.join at source lines 240, 293, 326). -/
def joinTexts (w : List Sentence) : Str := spaceJoin (w.map (fun s => s.text))

/-- End character of a window: the end of its last sentence
(current_chunk[-1]['end'] in the source; windows are non-empty whenever
this is read). -/
def windowEnd (w : List Sentence) : Nat := (w.getLastD default).end_

/-- SemanticChunker._create_sliding_window_chunks (source lines 222-333):
split into sentences, run the loop and materialize every emitted window
via _create_chunk. -/
def slidingWindowChunks (tk : Tokenizer) (cfg : ChunkConfig) (text : Str)
    (structures : List StructElem) (pageBreaks : List Nat) : List TextChunk :=
  let sentences := splitIntoSentences text
  (slidingWindowRaws tk cfg sentences structures).map
    (fun r => createChunk tk structures pageBreaks (joinTexts r.window) r.index r.startChar
      (windowEnd r.window))

/-! Heading recognition.  DocumentStructureExtractor.heading_patterns
(source lines 57-78) is an ordered table of regexes matched with re.match
and re.IGNORECASE against the stripped line; the first match wins.  Each
pattern is compiled here by hand into an executable recogniser returning
the text of capture group 1.  Under IGNORECASE the character class [A-Z]
matches ASCII letters of either case, and the Chapter/CHAPTER (resp.
Section/SECTION) pattern pairs recognise exactly the same lines, so one
recogniser per pair suffices. -/

/-- ASCII letter (the class [A-Z] under re.IGNORECASE; the embedding
restricts to ASCII). -/
def isAsciiAlpha (c : Char) : Bool :=
  ('A' ≤ c && c ≤ 'Z') || ('a' ≤ c && c ≤ 'z')

/-- The character class [\s:.-] used after chapter and section numbers. -/
def isTrailMark (c : Char) : Bool :=
  isPyWs c || c = ':' || c = '.' || c = '-'

/-- Consume a literal case-insensitively, returning the rest. -/
def dropLitCI : Str → Str → Option Str
  | [], s => some s
  | _, [] => none
  | c :: lr, d :: sr => if c.toLower = d.toLower then dropLitCI lr sr else none

/-- Consume one-or-more characters satisfying p (a greedy plus), returning
the rest; fails when no character matches. -/
def dropPlus (p : Char → Bool) (s : Str) : Option Str :=
  let run := s.takeWhile p
  if run = [] then none else some (s.drop run.length)

/-- Pattern ^Chapter\s+\d+[\s:.-]*(.*)$ with IGNORECASE (also covers the
all-caps variant). -/
def matchChapter (l : Str) : Option Str :=
  (dropLitCI ("chapter").toList l).bind fun r1 =>
  (dropPlus isPyWs r1).bind fun r2 =>
  (dropPlus Char.isDigit r2).map fun r3 =>
  r3.dropWhile isTrailMark

/-- Pattern ^제\s*\d+\s*장[\s:.-]*(.*)$ (Korean chapter marker). -/
def matchKoreanChapter (l : Str) : Option Str :=
  match l with
  | c :: r1 =>
    if c = '제' then
      (dropPlus Char.isDigit (r1.dropWhile isPyWs)).bind fun r3 =>
      match r3.dropWhile isPyWs with
      | d :: r5 => if d = '장' then some (r5.dropWhile isTrailMark) else none
      | [] => none
    else none
  | [] => none

/-- Pattern ^Section\s+\d+[\.\d]*[\s:.-]*(.*)$ with IGNORECASE (also covers
the all-caps variant). -/
def matchSection (l : Str) : Option Str :=
  (dropLitCI ("section").toList l).bind fun r1 =>
  (dropPlus isPyWs r1).bind fun r2 =>
  (dropPlus Char.isDigit r2).map fun r3 =>
  (r3.dropWhile (fun c => c = '.' || c.isDigit)).dropWhile isTrailMark

/-- Pattern ^\d+\.\s+(.*)$ (numbered section). -/
def matchNumbered (l : Str) : Option Str :=
  (dropPlus Char.isDigit l).bind fun r1 =>
  match r1 with
  | '.' :: r2 => dropPlus isPyWs r2
  | _ => none

/-- Pattern ^\d+\.\d+\s+(.*)$ (numbered subsection). -/
def matchDecimal (l : Str) : Option Str :=
  (dropPlus Char.isDigit l).bind fun r1 =>
  match r1 with
  | '.' :: r2 =>
    (dropPlus Char.isDigit r2).bind fun r3 =>
    dropPlus isPyWs r3
  | _ => none

/-- Pattern ^#{n}\s+(.*)$ (Markdown heading of level n, n = 1..4; the next
pattern in the table catches one more leading hash). -/
def matchHashes (n : Nat) (l : Str) : Option Str :=
  if l.take n = List.replicate n '#' then dropPlus isPyWs (l.drop n) else none

/-- Pattern ^([A-Z][A-Z\s]{4,})$ with IGNORECASE: a full line of at least
five letters and whitespace starting with a letter; the title is the whole
line. -/
def matchAllCaps (l : Str) : Option Str :=
  match l with
  | c :: rest =>
    if isAsciiAlpha c && rest.all (fun d => isAsciiAlpha d || isPyWs d) && 4 ≤ rest.length
    then some l else none
  | [] => none

/-- Word counting for the Title Case pattern: the line must be words of at
least two letters separated by runs of whitespace, with no leading or
trailing whitespace; returns the number of words. -/
def titleWordsGo : Nat → Str → Option Nat
  | 0, _ => none
  | _, [] => none
  | fuel + 1, l =>
    let w := l.takeWhile isAsciiAlpha
    if w.length < 2 then none
    else
      let rest := l.drop w.length
      if rest = [] then some 1
      else
        let ws := rest.takeWhile isPyWs
        if ws = [] then none
        else (titleWordsGo fuel (rest.drop ws.length)).map (· + 1)

/-- Entry point of the Title Case word scan; each recursion step consumes
at least one character, so the line length bounds the depth. -/
def titleWords (l : Str) : Option Nat := titleWordsGo l.length l

/-- Pattern ^([A-Z][a-z]+(?:\s+[A-Z][a-z]+){2,})$ with IGNORECASE: at least
three whitespace-separated words of at least two letters filling the whole
line; the title is the whole line. -/
def matchTitleCase (l : Str) : Option Str :=
  match titleWords l with
  | some n => if 3 ≤ n then some l else none
  | none => none

/-- First matching rule of the ordered heading table, with its kind and
level (source lines 57-78, 100-112). -/
def firstHeading (line : Str) : Option (Str × Nat × Str) :=
  match matchChapter line with
  | some t => some (("chapter").toList, 1, t)
  | none =>
  match matchKoreanChapter line with
  | some t => some (("chapter").toList, 1, t)
  | none =>
  match matchSection line with
  | some t => some (("section").toList, 2, t)
  | none =>
  match matchNumbered line with
  | some t => some (("section").toList, 2, t)
  | none =>
  match matchDecimal line with
  | some t => some (("subsection").toList, 3, t)
  | none =>
  match matchHashes 1 line with
  | some t => some (("h1").toList, 1, t)
  | none =>
  match matchHashes 2 line with
  | some t => some (("h2").toList, 2, t)
  | none =>
  match matchHashes 3 line with
  | some t => some (("h3").toList, 3, t)
  | none =>
  match matchHashes 4 line with
  | some t => some (("h4").toList, 4, t)
  | none =>
  match matchAllCaps line with
  | some t => some (("title").toList, 2, t)
  | none =>
  match matchTitleCase line with
  | some t => some (("title").toList, 2, t)
  | none => none

/-- DocumentStructureExtractor.extract_structure (source lines 90-114):
per non-blank stripped line, the first matching heading rule yields one
structural element whose title is the stripped capture group. -/
def extractStructure (text : Str) : List StructElem :=
  (enumFromIdx 0 (splitLines text)).filterMap (fun p =>
    let line := pyStrip p.2
    if line = [] then none
    else (firstHeading line).map (fun m =>
      { line_num := p.1, type_ := m.1, level := m.2.1
        title := pyStrip m.2.2, full_text := line }))

/-! Hierarchy builder (_add_chunk_hierarchy, source lines 438-488).
Python groups chunks into an insertion-ordered dict keyed by section
title, carrying the current section forward over untitled chunks; the
dict is modelled as an association list in insertion order, and each
grouped chunk is tagged with its position in the input so that the
in-place demotion of children can be replayed by value in the final
membership pass, exactly as Python's dataclass value equality does. -/

/-- Python truthiness of chunk.section_title: a present, non-empty
title. -/
def sectionKey (c : TextChunk) : Option Str :=
  match c.section_title with
  | some t => if t = [] then none else some t
  | none => none

/-- Append a value under a key of the insertion-ordered dict, creating the
key at the end when absent. -/
def dictAppend (d : List (Str × List (Nat × TextChunk))) (key : Str) (v : Nat × TextChunk) :
    List (Str × List (Nat × TextChunk)) :=
  match d with
  | [] => [(key, [v])]
  | (k, l) :: rest =>
    if k = key then (k, l ++ [v]) :: rest else (k, l) :: dictAppend rest key v

/-- Grouping pass (source lines 441-451).  `cur` is current_section; it is
only ever set to a non-empty title, so the Python truthiness test on it is
the `some` test here. -/
def groupBySectionGo : List (Nat × TextChunk) → Option Str →
    List (Str × List (Nat × TextChunk)) → List (Str × List (Nat × TextChunk))
  | [], _, d => d
  | (i, c) :: rest, cur, d =>
    match sectionKey c with
    | some t => groupBySectionGo rest (some t) (dictAppend d t (i, c))
    | none =>
      match cur with
      | some s => groupBySectionGo rest cur (dictAppend d s (i, c))
      | none => groupBySectionGo rest cur d

/-- Group chunks by (carried-forward) section title, in insertion order. -/
def groupBySection (chunks : List TextChunk) : List (Str × List (Nat × TextChunk)) :=
  groupBySectionGo (enumFromIdx 0 chunks) none []

/-- The ellipsis marker appended to a parent chunk's content. -/
def ellipsisMarker : Str := ['.', '.', '.']

instance : Inhabited TextChunk :=
  ⟨{ content := [], chunk_index := 0, token_count := 0, start_char := 0, end_char := 0 }⟩

/-- The parent chunk synthesized for a section of more than three chunks
(source lines 458-470): content is the space-join of the first three
children's contents each truncated to 500 characters, plus the ellipsis
marker; token_count is computed from the join WITHOUT the marker, while
the md5 hash (here: the content itself) is computed by __post_init__ from
the full content. -/
def mkParent (tk : Tokenizer) (sec : Str) (g : List (Nat × TextChunk)) (pid : Nat) : TextChunk :=
  let pt := spaceJoin ((g.take 3).map (fun p => p.2.content.take 500))
  { content := pt ++ ellipsisMarker
    chunk_index := pid
    token_count := tk.tok pt
    start_char := (g.headD (0, default)).2.start_char
    end_char := (g.getLastD (0, default)).2.end_char
    section_title := some sec
    chunk_level := 0
    parent_chunk_id := none
    metadata := Metadata.parentInfo g.length
    chunk_hash := pt ++ ellipsisMarker }

/-- Demotion of a child chunk (source lines 474-476). -/
def demote (pid : Nat) (c : TextChunk) : TextChunk :=
  { c with parent_chunk_id := some pid, chunk_level := 1 }

/-- Build the hierarchical list over the groups in dict order (source
lines 453-481): sections of more than three chunks contribute a parent
followed by their demoted children and advance the parent id; smaller
sections pass through unmodified. -/
def buildHier (tk : Tokenizer) : List (Str × List (Nat × TextChunk)) → Nat → List TextChunk
  | [], _ => []
  | (sec, g) :: rest, pid =>
    if 3 < g.length then
      mkParent tk sec g pid :: (g.map (fun p => demote pid p.2)) ++ buildHier tk rest (pid + 1)
    else g.map (fun p => p.2) ++ buildHier tk rest pid

/-- The in-place demotions performed while building: input position ↦
parent id, for every chunk of every large group. -/
def bigAssignGo : List (Str × List (Nat × TextChunk)) → Nat → List (Nat × Nat)
  | [], _ => []
  | (_, g) :: rest, pid =>
    if 3 < g.length then g.map (fun p => (p.1, pid)) ++ bigAssignGo rest (pid + 1)
    else bigAssignGo rest pid

/-- The value of input chunk i after the builder's in-place mutations. -/
def mutatedView (asg : List (Nat × Nat)) (i : Nat) (c : TextChunk) : TextChunk :=
  match asg.find? (fun p => p.1 = i) with
  | some p => demote p.2 c
  | none => c

/-- SemanticChunker._add_chunk_hierarchy (source lines 438-488): the
grouped hierarchical list followed by the input chunks not already present
in it by value (the "chunks without sections" pass, lines 484-486; the
iterated chunks carry the in-place demotions, and dataclass equality is
value equality of the modelled fields). -/
def addChunkHierarchy (tk : Tokenizer) (chunks : List TextChunk) : List TextChunk :=
  let groups := groupBySection chunks
  let asg := bigAssignGo groups 0
  (enumFromIdx 0 chunks).foldl
    (fun acc p =>
      let cv := mutatedView asg p.1 p.2
      if cv ∈ acc then acc else acc ++ [cv])
    (buildHier tk groups 0)

/-- SemanticChunker._deduplicate_chunks (source lines 490-505): keep the
chunks whose hash has not been seen before, in order.  The seen-set is the
list of already-kept hashes. -/
def deduplicateChunksGo : List TextChunk → List Str → List TextChunk
  | [], _ => []
  | c :: rest, seen =>
    if c.chunk_hash ∈ seen then deduplicateChunksGo rest seen
    else c :: deduplicateChunksGo rest (c.chunk_hash :: seen)

/-- Deduplication entry point. -/
def deduplicateChunks (chunks : List TextChunk) : List TextChunk :=
  deduplicateChunksGo chunks []

/-- SemanticChunker.chunk_text (source lines 186-220): extract structure
when configured, chunk with the sliding window, apply the hierarchy pass
when any structure was found, then deduplicate when enabled.  The special
blocks computed at source line 206 are passed to the window chunker but
never consumed by it, so they do not appear here.  A missing page_breaks
argument is the empty list. -/
def chunkText (tk : Tokenizer) (cfg : ChunkConfig) (text : Str) (pageBreaks : List Nat) :
    List TextChunk :=
  let structures := if cfg.detect_structure then extractStructure text else []
  let chunks := slidingWindowChunks tk cfg text structures pageBreaks
  let chunks := if structures ≠ [] then addChunkHierarchy tk chunks else chunks
  if cfg.enable_deduplication then deduplicateChunks chunks else chunks

/-- The state held by a SemanticChunker instance (source lines 173-180):
its configuration and the (unused) dedup hash set, initially empty. -/
structure SemanticChunker where
  config : ChunkConfig
  chunk_hashes : List Str
deriving Repr

/-- SemanticChunker.__init__ (source lines 173-180).  The Except layer
models the Python exception surface of construction; the body contains no
validation and no raise, so construction always succeeds, for every
configuration. -/
def semanticChunkerInit (cfg : ChunkConfig) : Except Str SemanticChunker :=
  Except.ok ⟨cfg, []⟩

/-! Helper notions and lemmas used by the claim theorems. -/

/-- The token sum of a window's sentences (the quantity accumulated by the
loop's current_tokens variable). -/
def winSum (tk : Tokenizer) (w : List Sentence) : Nat :=
  (w.map (fun s => tk.tok s.text)).sum

theorem tok_spaceJoin (tk : Tokenizer) :
    ∀ l : List Str, tk.tok (spaceJoin l) = (l.map tk.tok).sum
  | [] => by simp [spaceJoin, tk.tok_nil]
  | [s] => by simp [spaceJoin]
  | s :: s2 :: rest => by
    have ih := tok_spaceJoin tk (s2 :: rest)
    simp only [spaceJoin, tk.tok_space_add, List.map_cons, List.sum_cons] at ih ⊢
    omega

theorem tok_joinTexts (tk : Tokenizer) (w : List Sentence) :
    tk.tok (joinTexts w) = winSum tk w := by
  simp only [joinTexts, winSum, tok_spaceJoin, List.map_map]
  rfl

theorem winSum_append (tk : Tokenizer) (a b : List Sentence) :
    winSum tk (a ++ b) = winSum tk a + winSum tk b := by
  simp [winSum]

theorem computeOverlapGo_spec (tk : Tokenizer) (k : Nat) :
    ∀ rev acc t, t ≤ k → t = winSum tk acc →
      (computeOverlapGo tk k rev acc t).2 ≤ k ∧
      (computeOverlapGo tk k rev acc t).2 = winSum tk (computeOverlapGo tk k rev acc t).1
  | [], acc, t, ht, hs => by simpa [computeOverlapGo] using ⟨ht, hs⟩
  | s :: rest, acc, t, ht, hs => by
    by_cases h : t + tk.tok s.text ≤ k
    · have := computeOverlapGo_spec tk k rest (s :: acc) (t + tk.tok s.text) h
        (by simp [winSum, hs, List.sum_cons]; omega)
      simpa [computeOverlapGo, h] using this
    · simpa [computeOverlapGo, h] using ⟨ht, hs⟩

theorem computeOverlapGo_suffix (tk : Tokenizer) (k : Nat) :
    ∀ rev acc t, (computeOverlapGo tk k rev acc t).1 <:+ rev.reverse ++ acc
  | [], acc, t => by simp [computeOverlapGo]
  | s :: rest, acc, t => by
    by_cases h : t + tk.tok s.text ≤ k
    · have := computeOverlapGo_suffix tk k rest (s :: acc) (t + tk.tok s.text)
      simpa [computeOverlapGo, h] using this
    · simp only [computeOverlapGo, h, if_false]
      exact ⟨(s :: rest).reverse, by simp⟩

theorem computeOverlap_sum_le (tk : Tokenizer) (k : Nat) (w : List Sentence) :
    (computeOverlap tk k w).2 ≤ k :=
  (computeOverlapGo_spec tk k w.reverse [] 0 (Nat.zero_le k) (by simp [winSum])).1

theorem computeOverlap_sum_eq (tk : Tokenizer) (k : Nat) (w : List Sentence) :
    (computeOverlap tk k w).2 = winSum tk (computeOverlap tk k w).1 :=
  (computeOverlapGo_spec tk k w.reverse [] 0 (Nat.zero_le k) (by simp [winSum])).2

theorem computeOverlap_suffix (tk : Tokenizer) (k : Nat) (w : List Sentence) :
    (computeOverlap tk k w).1 <:+ w := by
  have h := computeOverlapGo_suffix tk k w.reverse [] 0
  simpa [computeOverlap] using h

/-! Concrete fixtures used by counterexamples and witnesses. -/

/-- A valid configuration with overlap (min < max, overlap < max). -/
def exCfgOverlap : ChunkConfig := { min_tokens := 5, max_tokens := 6, overlap_tokens := 4 }

/-- Three plain sentences; with `exCfgOverlap` the middle window becomes
overlap-seed plus sentence and exceeds max_tokens. -/
def exTextOverlap : Str := ("a b. c d e. f g.").toList

/-- A valid configuration without overlap. -/
def exCfgPlain : ChunkConfig := { min_tokens := 5, max_tokens := 6, overlap_tokens := 0 }

/-- A heading followed by five short sentences: one section producing five
chunks, hence a synthesized parent. -/
def exTextHeaded : Str := ("# S\nab cd. ef gh. ij kl. mn op. qr st.").toList

/-- A chunk with no section title. -/
def exChunkNoSec : TextChunk :=
  { content := ['a'], chunk_index := 0, token_count := 1, start_char := 0, end_char := 1,
    chunk_hash := ['a'] }

/-- A chunk titled with section A. -/
def exChunkSecA : TextChunk :=
  { content := ['b'], chunk_index := 1, token_count := 1, start_char := 1, end_char := 2,
    section_title := some ['A'], chunk_hash := ['b'] }

/-- A configuration violating both constraints the spec says are validated
(min_tokens ≥ max_tokens and overlap_tokens ≥ max_tokens). -/
def exBadCfg : ChunkConfig := { min_tokens := 5, max_tokens := 3, overlap_tokens := 3 }

/-! Claim C6. -/

/-- C6 counterexample: constructing the chunker with min_tokens ≥
max_tokens and overlap_tokens ≥ max_tokens succeeds; no configuration
error is raised at construction time, contrary to the claim. -/
theorem c6_counterexample :
    exBadCfg.max_tokens ≤ exBadCfg.min_tokens ∧
    exBadCfg.max_tokens ≤ exBadCfg.overlap_tokens ∧
    semanticChunkerInit exBadCfg = Except.ok { config := exBadCfg, chunk_hashes := [] } :=
  ⟨by decide, by decide, rfl⟩

/-- C6 amended: construction performs no validation at all — it succeeds
for every configuration, including those with min_tokens ≥ max_tokens or
overlap_tokens ≥ max_tokens; chunking itself is total and never fails for
these conditions. -/
theorem c6_amended (cfg : ChunkConfig) :
    semanticChunkerInit cfg = Except.ok { config := cfg, chunk_hashes := [] } := rfl

/-! Claim C10. -/

theorem firstIdxSat_eq_none (p : Nat → Bool) :
    ∀ l : List Nat, (∀ b ∈ l, p b = false) → firstIdxSat p l = none
  | [], _ => rfl
  | b :: rest, h => by
    have hb := h b (by simp)
    have ih := firstIdxSat_eq_none p rest (fun x hx => h x (by simp [hx]))
    simp [firstIdxSat, hb, ih]

/-- C10: with a non-empty page_breaks list, a chunk starting at or past
every break offset gets start_page = none, and a chunk ending strictly
past every break offset gets end_page = none — a chunk on the document's
last page is emitted with missing page numbers. -/
theorem c10_last_page_missing (tk : Tokenizer) (structures : List StructElem)
    (pageBreaks : List Nat) (text : Str) (index startChar endChar : Nat)
    (hne : pageBreaks ≠ []) :
    ((∀ b ∈ pageBreaks, b ≤ startChar) →
      (createChunk tk structures pageBreaks text index startChar endChar).start_page = none) ∧
    ((∀ b ∈ pageBreaks, b < endChar) →
      (createChunk tk structures pageBreaks text index startChar endChar).end_page = none) := by
  constructor
  · intro h
    have hall : ∀ b ∈ pageBreaks, (decide (startChar < b)) = false := by
      intro b hb
      simpa using Nat.not_lt.mpr (h b hb)
    simp [createChunk, hne, firstIdxSat_eq_none _ _ hall]
  · intro h
    have hall : ∀ b ∈ pageBreaks, (decide (endChar ≤ b)) = false := by
      intro b hb
      simpa using Nat.not_le.mpr (h b hb)
    simp [createChunk, hne, firstIdxSat_eq_none _ _ hall]

/-- C10 witness at a concrete chunk on the last page. -/
theorem c10_last_page_missing_witness :
    (([5, 9] : List Nat) ≠ []) ∧
    (∀ b ∈ ([5, 9] : List Nat), b ≤ 9) ∧
    (∀ b ∈ ([5, 9] : List Nat), b < 10) ∧
    (createChunk nscTok [] [5, 9] ['x'] 0 9 10).start_page = none ∧
    (createChunk nscTok [] [5, 9] ['x'] 0 9 10).end_page = none :=
  ⟨by decide, by decide, by decide,
   (c10_last_page_missing nscTok [] [5, 9] ['x'] 0 9 10 (by decide)).1 (by decide),
   (c10_last_page_missing nscTok [] [5, 9] ['x'] 0 9 10 (by decide)).2 (by decide)⟩

/-! Claim C5. -/

theorem dedupGo_sublist : ∀ (l : List TextChunk) (seen : List Str),
    List.Sublist (deduplicateChunksGo l seen) l
  | [], _ => List.Sublist.refl []
  | c :: rest, seen => by
    by_cases h : c.chunk_hash ∈ seen
    · simpa [deduplicateChunksGo, h] using (dedupGo_sublist rest seen).cons c
    · simpa [deduplicateChunksGo, h] using (dedupGo_sublist rest (c.chunk_hash :: seen)).cons₂ c

theorem dedupGo_mem : ∀ (l : List TextChunk) (seen : List Str) (c : TextChunk),
    c ∈ deduplicateChunksGo l seen → c ∈ l ∧ c.chunk_hash ∉ seen
  | [], _, _, h => by simp [deduplicateChunksGo] at h
  | d :: rest, seen, c, h => by
    by_cases hd : d.chunk_hash ∈ seen
    · simp only [deduplicateChunksGo, hd, if_true] at h
      have := dedupGo_mem rest seen c h
      exact ⟨by simp [this.1], this.2⟩
    · simp only [deduplicateChunksGo, hd, if_false] at h
      rw [List.mem_cons] at h
      rcases h with h | h
      · subst h
        exact ⟨by simp, hd⟩
      · have := dedupGo_mem rest (d.chunk_hash :: seen) c h
        refine ⟨by simp [this.1], fun hc => ?_⟩
        exact this.2 (by simp [hc])

theorem dedupGo_first : ∀ (l : List TextChunk) (seen : List Str) (c : TextChunk),
    c ∈ deduplicateChunksGo l seen →
    l.find? (fun d => d.chunk_hash == c.chunk_hash) = some c
  | [], _, _, h => by simp [deduplicateChunksGo] at h
  | d :: rest, seen, c, h => by
    by_cases hd : d.chunk_hash ∈ seen
    · simp only [deduplicateChunksGo, hd, if_true] at h
      have hne : ¬ (d.chunk_hash == c.chunk_hash) = true := by
        have hc := (dedupGo_mem rest seen c h).2
        intro he
        exact hc (by rw [← (beq_iff_eq).mp he]; exact hd)
      simp only [List.find?, hne, if_false, Bool.false_eq_true]
      exact dedupGo_first rest seen c h
    · simp only [deduplicateChunksGo, hd, if_false] at h
      rw [List.mem_cons] at h
      rcases h with h | h
      · subst h
        simp [List.find?]
      · have hc := (dedupGo_mem rest (d.chunk_hash :: seen) c h).2
        have hne : ¬ (d.chunk_hash == c.chunk_hash) = true := by
          intro he
          exact hc (by simp [← (beq_iff_eq).mp he])
        simp only [List.find?, hne, Bool.false_eq_true, if_false]
        exact dedupGo_first rest (d.chunk_hash :: seen) c h

theorem dedupGo_cover : ∀ (l : List TextChunk) (seen : List Str) (d : TextChunk),
    d ∈ l → d.chunk_hash ∈ seen ∨
      ∃ c ∈ deduplicateChunksGo l seen, c.chunk_hash = d.chunk_hash
  | [], _, _, h => by simp at h
  | e :: rest, seen, d, h => by
    by_cases he : e.chunk_hash ∈ seen
    · simp only [deduplicateChunksGo, he, if_true]
      rcases List.mem_cons.mp h with h | h
      · subst h
        exact Or.inl he
      · exact dedupGo_cover rest seen d h
    · simp only [deduplicateChunksGo, he, if_false]
      rcases List.mem_cons.mp h with h | h
      · subst h
        exact Or.inr ⟨d, by simp⟩
      · rcases dedupGo_cover rest (e.chunk_hash :: seen) d h with hs | ⟨c, hc, hch⟩
        · rcases List.mem_cons.mp hs with hs | hs
          · exact Or.inr ⟨e, by simp [hs]⟩
          · exact Or.inl hs
        · exact Or.inr ⟨c, by simp [hc], hch⟩

theorem dedupGo_pairwise : ∀ (l : List TextChunk) (seen : List Str),
    (deduplicateChunksGo l seen).Pairwise (fun a b => a.chunk_hash ≠ b.chunk_hash)
  | [], _ => by simp [deduplicateChunksGo]
  | c :: rest, seen => by
    by_cases h : c.chunk_hash ∈ seen
    · simpa [deduplicateChunksGo, h] using dedupGo_pairwise rest seen
    · simp only [deduplicateChunksGo, h, if_false]
      refine List.Pairwise.cons (fun b hb => ?_) (dedupGo_pairwise rest (c.chunk_hash :: seen))
      have := (dedupGo_mem rest (c.chunk_hash :: seen) b hb).2
      intro he
      exact this (by simp [← he])

theorem dedupGo_idem : ∀ (l : List TextChunk) (seen : List Str),
    deduplicateChunksGo (deduplicateChunksGo l seen) seen = deduplicateChunksGo l seen
  | [], _ => rfl
  | c :: rest, seen => by
    by_cases h : c.chunk_hash ∈ seen
    · simpa [deduplicateChunksGo, h] using dedupGo_idem rest seen
    · simp only [deduplicateChunksGo, h, if_false]
      simpa [deduplicateChunksGo, h] using dedupGo_idem rest (c.chunk_hash :: seen)

/-- C5: deduplication keeps, in order, exactly the first chunk of each
distinct content hash — the result is a sublist of the input (order
preserving), every kept chunk is the first input chunk bearing its hash,
every input hash is represented, kept hashes are pairwise distinct — and
the pass is idempotent. -/
theorem c5_dedup_contract (chunks : List TextChunk) :
    List.Sublist (deduplicateChunks chunks) chunks ∧
    (∀ c ∈ deduplicateChunks chunks,
      chunks.find? (fun d => d.chunk_hash == c.chunk_hash) = some c) ∧
    (∀ d ∈ chunks, ∃ c ∈ deduplicateChunks chunks, c.chunk_hash = d.chunk_hash) ∧
    (deduplicateChunks chunks).Pairwise (fun a b => a.chunk_hash ≠ b.chunk_hash) ∧
    deduplicateChunks (deduplicateChunks chunks) = deduplicateChunks chunks := by
  refine ⟨dedupGo_sublist chunks [], fun c hc => dedupGo_first chunks [] c hc,
    fun d hd => ?_, dedupGo_pairwise chunks [], dedupGo_idem chunks []⟩
  rcases dedupGo_cover chunks [] d hd with hs | h
  · simp at hs
  · exact h

/-! Claim C1. -/

/-- C1 counterexample: with overlap_tokens = 4 < max_tokens = 6 the second
chunk of this run counts 7 > 6 tokens, yet it is not a single sentence (no
input sentence equals its content) and no input sentence alone exceeds
max_tokens: after a hard cutoff the window is reseeded with the overlap
and the incoming sentence pushes the reseeded window past max_tokens. -/
theorem c1_counterexample :
    ∃ c ∈ slidingWindowChunks nscTok exCfgOverlap exTextOverlap [] [],
      exCfgOverlap.max_tokens < c.token_count ∧
      ∀ s ∈ splitIntoSentences exTextOverlap,
        s.text ≠ c.content ∧ nscTok.tok s.text ≤ exCfgOverlap.max_tokens := by decide

/-- The amended per-chunk token bound: an emitted window stays within
max_tokens + overlap_tokens unless one of its sentences alone exceeds
max_tokens. -/
def RawTokenOK (tk : Tokenizer) (cfg : ChunkConfig) (r : RawChunk) : Prop :=
  winSum tk r.window ≤ cfg.max_tokens + cfg.overlap_tokens ∨
  ∃ s ∈ r.window, cfg.max_tokens < tk.tok s.text

/-- Loop invariant for the token bound: all emitted windows satisfy the
bound, the running counter equals the window's token sum, and the current
window satisfies the bound as well. -/
def TokenInv (tk : Tokenizer) (cfg : ChunkConfig) (st : SWState) : Prop :=
  (∀ r ∈ st.chunks, RawTokenOK tk cfg r) ∧
  st.tokens = winSum tk st.current ∧
  (winSum tk st.current ≤ cfg.max_tokens + cfg.overlap_tokens ∨
   ∃ s ∈ st.current, cfg.max_tokens < tk.tok s.text)

theorem winSum_snoc (tk : Tokenizer) (w : List Sentence) (s : Sentence) :
    winSum tk (w ++ [s]) = winSum tk w + tk.tok s.text := by
  simp [winSum]

theorem chunksOK_snoc (tk : Tokenizer) (cfg : ChunkConfig) (st : SWState) (r0 : RawChunk)
    (hc : ∀ r ∈ st.chunks, RawTokenOK tk cfg r) (h0 : RawTokenOK tk cfg r0) :
    ∀ r ∈ st.chunks ++ [r0], RawTokenOK tk cfg r := by
  intro r hr
  rw [List.mem_append] at hr
  rcases hr with hr | hr
  · exact hc r hr
  · simp only [List.mem_singleton] at hr
    subst hr
    exact h0

theorem tokenInv_hard_append (tk : Tokenizer) (cfg : ChunkConfig) (sentence : Sentence)
    (st : SWState) (h : TokenInv tk cfg st) :
    TokenInv tk cfg (appendPart tk sentence (hardPart tk cfg sentence st)) := by
  obtain ⟨hc, ht, hw⟩ := h
  unfold hardPart appendPart
  by_cases hfire : st.tokens + tk.tok sentence.text > cfg.max_tokens ∧ st.current ≠ []
  · rw [if_pos hfire]
    by_cases hk : 0 < cfg.overlap_tokens
    · rw [if_pos hk]
      dsimp only
      refine ⟨chunksOK_snoc tk cfg st _ hc hw, ?_, ?_⟩
      · rw [winSum_snoc, ← computeOverlap_sum_eq]
      · by_cases hs : tk.tok sentence.text ≤ cfg.max_tokens
        · left
          rw [winSum_snoc]
          have h1 := computeOverlap_sum_le tk cfg.overlap_tokens st.current
          have h2 := computeOverlap_sum_eq tk cfg.overlap_tokens st.current
          omega
        · right
          exact ⟨sentence, by simp, by omega⟩
    · rw [if_neg hk]
      dsimp only
      refine ⟨chunksOK_snoc tk cfg st _ hc hw, by simp [winSum], ?_⟩
      by_cases hs : tk.tok sentence.text ≤ cfg.max_tokens
      · left
        simp only [List.nil_append]
        have hone : winSum tk [sentence] = tk.tok sentence.text := by simp [winSum]
        omega
      · right
        exact ⟨sentence, by simp, by omega⟩
  · rw [if_neg hfire]
    refine ⟨hc, by rw [winSum_snoc, ht], ?_⟩
    rw [not_and_or] at hfire
    rcases hfire with hfire | hfire
    · left
      rw [winSum_snoc]
      omega
    · rw [not_not] at hfire
      rw [hfire]
      by_cases hs : tk.tok sentence.text ≤ cfg.max_tokens
      · left
        simp only [List.nil_append]
        have hone : winSum tk [sentence] = tk.tok sentence.text := by simp [winSum]
        omega
      · right
        exact ⟨sentence, by simp [hfire], by omega⟩

theorem tokenInv_emptyGuard (sentence : Sentence) (st : SWState) (tk : Tokenizer)
    (cfg : ChunkConfig) (h : TokenInv tk cfg st) :
    TokenInv tk cfg (emptyGuardPart sentence st) := by
  unfold emptyGuardPart
  by_cases hcur : st.current = []
  · rw [if_pos hcur]
    exact h
  · rw [if_neg hcur]
    exact h

theorem tokenInv_soft (tk : Tokenizer) (cfg : ChunkConfig) (sentences : List Sentence)
    (structures : List StructElem) (i : Nat) (st : SWState) (h : TokenInv tk cfg st) :
    TokenInv tk cfg (softPart tk cfg sentences structures i st) := by
  obtain ⟨hc, ht, hw⟩ := h
  unfold softPart
  by_cases hfire : cfg.min_tokens ≤ st.tokens ∧ isGoodBreakPoint i sentences structures = true
  · simp only [if_pos hfire]
    by_cases hrem : (((sentences.drop (i + 1)).take 4).map (fun s => tk.tok s.text)).sum * 2 <
        cfg.min_tokens
    · simp only [if_pos hrem]
      exact ⟨hc, ht, hw⟩
    · simp only [if_neg hrem]
      have hemit : ∀ r ∈ st.chunks ++ [(⟨st.current, st.startChar, st.index⟩ : RawChunk)],
          RawTokenOK tk cfg r := by
        intro r hr
        rw [List.mem_append] at hr
        rcases hr with hr | hr
        · exact hc r hr
        · simp only [List.mem_singleton] at hr
          subst hr
          exact hw
      by_cases hk : 0 < cfg.overlap_tokens ∧ i + 1 < sentences.length
      · simp only [if_pos hk]
        refine ⟨hemit, (computeOverlap_sum_eq tk cfg.overlap_tokens st.current), ?_⟩
        left
        rw [← computeOverlap_sum_eq]
        have := computeOverlap_sum_le tk cfg.overlap_tokens st.current
        omega
      · simp only [if_neg hk]
        exact ⟨hemit, by simp [winSum], by left; simp [winSum]⟩
  · simp only [if_neg hfire]
    exact ⟨hc, ht, hw⟩

theorem tokenInv_step (tk : Tokenizer) (cfg : ChunkConfig) (sentences : List Sentence)
    (structures : List StructElem) (i : Nat) (st : SWState) (h : TokenInv tk cfg st) :
    TokenInv tk cfg (swStep tk cfg sentences structures i st) :=
  tokenInv_soft tk cfg sentences structures i _
    (tokenInv_emptyGuard _ _ tk cfg (tokenInv_hard_append tk cfg _ st h))

theorem tokenInv_go (tk : Tokenizer) (cfg : ChunkConfig) (sentences : List Sentence)
    (structures : List StructElem) :
    ∀ (rem : List Sentence) (i : Nat) (st : SWState), TokenInv tk cfg st →
      TokenInv tk cfg (swGo tk cfg sentences structures rem i st)
  | [], _, st, h => h
  | _ :: rest, i, st, h =>
    tokenInv_go tk cfg sentences structures rest (i + 1) _
      (tokenInv_step tk cfg sentences structures i st h)

theorem rawTokenOK_of_mem (tk : Tokenizer) (cfg : ChunkConfig) (sentences : List Sentence)
    (structures : List StructElem) :
    ∀ r ∈ slidingWindowRaws tk cfg sentences structures, RawTokenOK tk cfg r := by
  intro r hr
  have hinv : TokenInv tk cfg (swGo tk cfg sentences structures sentences 0 initState) :=
    tokenInv_go tk cfg sentences structures sentences 0 initState
      ⟨by simp [initState], by simp [initState, winSum], by left; simp [initState, winSum]⟩
  obtain ⟨hc, ht, hw⟩ := hinv
  unfold slidingWindowRaws at hr
  rw [List.mem_append] at hr
  rcases hr with hr | hr
  · exact hc r hr
  · by_cases hne : (swGo tk cfg sentences structures sentences 0 initState).current ≠ []
    · simp only [if_pos hne, List.mem_singleton] at hr
      subst hr
      exact hw
    · simp [if_neg hne] at hr

/-- C1 amended: every chunk emitted by the sliding-window chunker has
token_count at most max_tokens + overlap_tokens, unless its window
contains a sentence whose token count alone exceeds max_tokens (with
overlap_tokens = 0 this is the original bound max_tokens, so the original
claim additionally fails only through overlap reseeding). -/
theorem c1_token_bound_amended (tk : Tokenizer) (cfg : ChunkConfig) (text : Str)
    (structures : List StructElem) (pageBreaks : List Nat) :
    ∀ c ∈ slidingWindowChunks tk cfg text structures pageBreaks,
      c.token_count ≤ cfg.max_tokens + cfg.overlap_tokens ∨
      ∃ r ∈ slidingWindowRaws tk cfg (splitIntoSentences text) structures,
        c.content = joinTexts r.window ∧ ∃ s ∈ r.window, cfg.max_tokens < tk.tok s.text := by
  intro c hc
  unfold slidingWindowChunks at hc
  rw [List.mem_map] at hc
  obtain ⟨r, hr, hcr⟩ := hc
  have hco : c.content = joinTexts r.window := by rw [← hcr]; rfl
  have hct : c.token_count = tk.tok (joinTexts r.window) := by rw [← hcr]; rfl
  rcases rawTokenOK_of_mem tk cfg (splitIntoSentences text) structures r hr with hb | hb
  · left
    rw [hct, tok_joinTexts]
    exact hb
  · right
    exact ⟨r, hr, hco, hb⟩

/-- C1 witness: the amended bound applied to the first chunk of a concrete
run without overlap. -/
theorem c1_token_bound_amended_witness :
    createChunk nscTok [] [] (("a b.").toList) 0 0 5 ∈
      slidingWindowChunks nscTok exCfgPlain exTextOverlap [] [] ∧
    ((createChunk nscTok [] [] (("a b.").toList) 0 0 5).token_count ≤
        exCfgPlain.max_tokens + exCfgPlain.overlap_tokens ∨
      ∃ r ∈ slidingWindowRaws nscTok exCfgPlain (splitIntoSentences exTextOverlap) [],
        (createChunk nscTok [] [] (("a b.").toList) 0 0 5).content = joinTexts r.window ∧
        ∃ s ∈ r.window, exCfgPlain.max_tokens < nscTok.tok s.text) :=
  ⟨by decide, c1_token_bound_amended nscTok exCfgPlain exTextOverlap [] []
    (createChunk nscTok [] [] (("a b.").toList) 0 0 5) (by decide)⟩

/-- C5 witness: the dedup contract applied to a concrete duplicated
list. -/
theorem c5_dedup_contract_witness :
    List.Sublist (deduplicateChunks [exChunkNoSec, exChunkNoSec]) [exChunkNoSec, exChunkNoSec] ∧
    deduplicateChunks (deduplicateChunks [exChunkNoSec, exChunkNoSec]) =
      deduplicateChunks [exChunkNoSec, exChunkNoSec] :=
  ⟨(c5_dedup_contract [exChunkNoSec, exChunkNoSec]).1,
   (c5_dedup_contract [exChunkNoSec, exChunkNoSec]).2.2.2.2⟩

/-! Claim C4. -/

/-- The next window extends the greedy overlap seed of the previous one. -/
def SeedLink (tk : Tokenizer) (k : Nat) (w1 w2 : List Sentence) : Prop :=
  ∃ rest, w2 = (computeOverlap tk k w1).1 ++ rest

/-- Loop invariant for overlap seeding (requires overlap_tokens > 0):
consecutive emitted windows are linked by the overlap seed, and the
current window extends the seed of the last emitted one. -/
def ChainInv (tk : Tokenizer) (k : Nat) (st : SWState) : Prop :=
  List.Chain' (fun a b => SeedLink tk k a.window b.window) st.chunks ∧
  ∀ last ∈ st.chunks.getLast?, SeedLink tk k last.window st.current

theorem chain_emit (tk : Tokenizer) (k : Nat) (chunks : List RawChunk) (w : List Sentence)
    (sc idx : Nat)
    (hch : List.Chain' (fun a b => SeedLink tk k a.window b.window) chunks)
    (hlink : ∀ last ∈ chunks.getLast?, SeedLink tk k last.window w) :
    List.Chain' (fun a b => SeedLink tk k a.window b.window)
      (chunks ++ [(⟨w, sc, idx⟩ : RawChunk)]) := by
  rw [List.chain'_append]
  refine ⟨hch, List.chain'_singleton _, fun x hx y hy => ?_⟩
  simp only [List.head?_cons, Option.mem_def, Option.some.injEq] at hy
  subst hy
  exact hlink x hx

theorem chainInv_hard (tk : Tokenizer) (cfg : ChunkConfig) (sentence : Sentence) (st : SWState)
    (hk : 0 < cfg.overlap_tokens) (h : ChainInv tk cfg.overlap_tokens st) :
    ChainInv tk cfg.overlap_tokens (hardPart tk cfg sentence st) := by
  obtain ⟨hch, hlink⟩ := h
  unfold hardPart
  by_cases hfire : st.tokens + tk.tok sentence.text > cfg.max_tokens ∧ st.current ≠ []
  · rw [if_pos hfire, if_pos hk]
    refine ⟨chain_emit tk cfg.overlap_tokens st.chunks st.current st.startChar st.index hch
      hlink, ?_⟩
    intro last hl
    rw [show (st.chunks ++ [(⟨st.current, st.startChar, st.index⟩ : RawChunk)]).getLast?
        = some ⟨st.current, st.startChar, st.index⟩ from List.getLast?_concat _] at hl
    simp only [Option.mem_def, Option.some.injEq] at hl
    subst hl
    exact ⟨[], by simp⟩
  · rw [if_neg hfire]
    exact ⟨hch, hlink⟩

theorem chainInv_append (tk : Tokenizer) (k : Nat) (sentence : Sentence) (st : SWState)
    (h : ChainInv tk k st) : ChainInv tk k (appendPart tk sentence st) := by
  obtain ⟨hch, hlink⟩ := h
  refine ⟨hch, fun last hl => ?_⟩
  obtain ⟨rest, hr⟩ := hlink last hl
  exact ⟨rest ++ [sentence], by rw [show (appendPart tk sentence st).current
    = st.current ++ [sentence] from rfl, hr, List.append_assoc]⟩

theorem chainInv_emptyGuard (tk : Tokenizer) (k : Nat) (sentence : Sentence) (st : SWState)
    (h : ChainInv tk k st) : ChainInv tk k (emptyGuardPart sentence st) := by
  unfold emptyGuardPart
  by_cases hcur : st.current = []
  · rw [if_pos hcur]
    exact h
  · rw [if_neg hcur]
    exact h

theorem chainInv_soft_more (tk : Tokenizer) (cfg : ChunkConfig) (sentences : List Sentence)
    (structures : List StructElem) (i : Nat) (st : SWState)
    (hk : 0 < cfg.overlap_tokens) (hmore : i + 1 < sentences.length)
    (h : ChainInv tk cfg.overlap_tokens st) :
    ChainInv tk cfg.overlap_tokens (softPart tk cfg sentences structures i st) := by
  obtain ⟨hch, hlink⟩ := h
  unfold softPart
  by_cases hfire : cfg.min_tokens ≤ st.tokens ∧ isGoodBreakPoint i sentences structures = true
  · rw [if_pos hfire]
    by_cases hrem : (((sentences.drop (i + 1)).take 4).map (fun s => tk.tok s.text)).sum * 2 <
        cfg.min_tokens
    · rw [if_pos hrem]
      exact ⟨hch, hlink⟩
    · rw [if_neg hrem, if_pos (And.intro hk hmore)]
      refine ⟨chain_emit tk cfg.overlap_tokens st.chunks st.current st.startChar st.index hch
        hlink, ?_⟩
      intro last hl
      rw [show (st.chunks ++ [(⟨st.current, st.startChar, st.index⟩ : RawChunk)]).getLast?
          = some ⟨st.current, st.startChar, st.index⟩ from List.getLast?_concat _] at hl
      simp only [Option.mem_def, Option.some.injEq] at hl
      subst hl
      exact ⟨[], by simp⟩
  · rw [if_neg hfire]
    exact ⟨hch, hlink⟩

/-- Weak conclusion of the chain invariant, enough after the last loop
iteration: the emitted windows are chained, and if the current window is
non-empty it still extends the seed of the last emitted window. -/
def ChainWeak (tk : Tokenizer) (k : Nat) (st : SWState) : Prop :=
  List.Chain' (fun a b => SeedLink tk k a.window b.window) st.chunks ∧
  (st.current ≠ [] → ∀ last ∈ st.chunks.getLast?, SeedLink tk k last.window st.current)

theorem chainWeak_of_inv (tk : Tokenizer) (k : Nat) (st : SWState) (h : ChainInv tk k st) :
    ChainWeak tk k st := ⟨h.1, fun _ => h.2⟩

theorem chainInv_soft_weak (tk : Tokenizer) (cfg : ChunkConfig) (sentences : List Sentence)
    (structures : List StructElem) (i : Nat) (st : SWState)
    (hk : 0 < cfg.overlap_tokens) (h : ChainInv tk cfg.overlap_tokens st) :
    ChainWeak tk cfg.overlap_tokens (softPart tk cfg sentences structures i st) := by
  obtain ⟨hch, hlink⟩ := h
  unfold softPart
  by_cases hfire : cfg.min_tokens ≤ st.tokens ∧ isGoodBreakPoint i sentences structures = true
  · rw [if_pos hfire]
    by_cases hrem : (((sentences.drop (i + 1)).take 4).map (fun s => tk.tok s.text)).sum * 2 <
        cfg.min_tokens
    · rw [if_pos hrem]
      exact ⟨hch, fun _ => hlink⟩
    · rw [if_neg hrem]
      by_cases hseed : 0 < cfg.overlap_tokens ∧ i + 1 < sentences.length
      · rw [if_pos hseed]
        refine ⟨chain_emit tk cfg.overlap_tokens st.chunks st.current st.startChar st.index hch
          hlink, fun _ last hl => ?_⟩
        rw [show (st.chunks ++ [(⟨st.current, st.startChar, st.index⟩ : RawChunk)]).getLast?
            = some ⟨st.current, st.startChar, st.index⟩ from List.getLast?_concat _] at hl
        simp only [Option.mem_def, Option.some.injEq] at hl
        subst hl
        exact ⟨[], by simp⟩
      · rw [if_neg hseed]
        refine ⟨chain_emit tk cfg.overlap_tokens st.chunks st.current st.startChar st.index hch
          hlink, fun hne _ _ => absurd rfl hne⟩
  · rw [if_neg hfire]
    exact ⟨hch, fun _ => hlink⟩

theorem chainGo (tk : Tokenizer) (cfg : ChunkConfig) (sentences : List Sentence)
    (structures : List StructElem) (hk : 0 < cfg.overlap_tokens) :
    ∀ (rem : List Sentence) (i : Nat) (st : SWState), rem = sentences.drop i →
      ChainInv tk cfg.overlap_tokens st →
      ChainWeak tk cfg.overlap_tokens (swGo tk cfg sentences structures rem i st)
  | [], _, st, _, h => chainWeak_of_inv tk cfg.overlap_tokens st h
  | s :: rest, i, st, hrem, h => by
    have hrest : rest = sentences.drop (i + 1) := by
      have h1 : sentences.drop (i + 1) = (sentences.drop i).drop 1 := by
        rw [List.drop_drop]
      rw [h1, ← hrem, List.drop_one, List.tail_cons]
    rcases List.eq_nil_or_concat rest with hnil | _
    · subst hnil
      show ChainWeak tk cfg.overlap_tokens
        (swGo tk cfg sentences structures [] (i + 1) (swStep tk cfg sentences structures i st))
      unfold swGo swStep
      exact chainInv_soft_weak tk cfg sentences structures i _ hk
        (chainInv_emptyGuard tk cfg.overlap_tokens _ _
          (chainInv_append tk cfg.overlap_tokens _ _
            (chainInv_hard tk cfg _ st hk h)))
    · have hmore : i + 1 < sentences.length := by
        by_contra hle
        have : sentences.drop (i + 1) = [] := by
          apply List.drop_eq_nil_of_le
          omega
        rw [← hrest] at this
        rename_i hcons
        obtain ⟨_, _, hx⟩ := hcons
        subst hx
        simp at this
      refine chainGo tk cfg sentences structures hk rest (i + 1) _ hrest ?_
      unfold swStep
      exact chainInv_soft_more tk cfg sentences structures i _ hk hmore
        (chainInv_emptyGuard tk cfg.overlap_tokens _ _
          (chainInv_append tk cfg.overlap_tokens _ _
            (chainInv_hard tk cfg _ st hk h)))

/-- C4: with overlap_tokens = k > 0, for any two consecutive emitted
top-level chunks the second window extends the greedy overlap seed of the
first: the seed is a suffix of the first window chosen most-recent-first,
its accumulated token sum — and hence the token count of the shared seed
text — is at most k, and the second window is the seed followed by the
subsequently appended sentences. -/
theorem c4_overlap_seed_contract (tk : Tokenizer) (cfg : ChunkConfig)
    (hk : 0 < cfg.overlap_tokens) (sentences : List Sentence) (structures : List StructElem) :
    List.Chain' (fun a b =>
      (computeOverlap tk cfg.overlap_tokens a.window).1 <:+ a.window ∧
      winSum tk (computeOverlap tk cfg.overlap_tokens a.window).1 ≤ cfg.overlap_tokens ∧
      tk.tok (joinTexts (computeOverlap tk cfg.overlap_tokens a.window).1) ≤
        cfg.overlap_tokens ∧
      ∃ rest, b.window = (computeOverlap tk cfg.overlap_tokens a.window).1 ++ rest)
      (slidingWindowRaws tk cfg sentences structures) := by
  have hweak : ChainWeak tk cfg.overlap_tokens
      (swGo tk cfg sentences structures sentences 0 initState) :=
    chainGo tk cfg sentences structures hk sentences 0 initState rfl
      ⟨by simp [initState], by simp [initState]⟩
  obtain ⟨hch, hlink⟩ := hweak
  have hchain : List.Chain' (fun a b => SeedLink tk cfg.overlap_tokens a.window b.window)
      (slidingWindowRaws tk cfg sentences structures) := by
    unfold slidingWindowRaws
    dsimp only
    by_cases hne : (swGo tk cfg sentences structures sentences 0 initState).current ≠ []
    · rw [if_pos hne]
      exact chain_emit tk cfg.overlap_tokens _ _ _ _ hch (hlink hne)
    · rw [if_neg hne]
      simpa using hch
  refine List.Chain'.imp ?_ hchain
  intro a b hab
  refine ⟨computeOverlap_suffix tk cfg.overlap_tokens a.window, ?_, ?_, hab⟩
  · rw [← computeOverlap_sum_eq]
    exact computeOverlap_sum_le tk cfg.overlap_tokens a.window
  · rw [tok_joinTexts, ← computeOverlap_sum_eq]
    exact computeOverlap_sum_le tk cfg.overlap_tokens a.window

/-- C4 witness: the contract applied to the concrete overlapping run. -/
theorem c4_overlap_seed_contract_witness :
    0 < exCfgOverlap.overlap_tokens ∧
    List.Chain' (fun a b =>
      (computeOverlap nscTok exCfgOverlap.overlap_tokens a.window).1 <:+ a.window ∧
      winSum nscTok (computeOverlap nscTok exCfgOverlap.overlap_tokens a.window).1 ≤
        exCfgOverlap.overlap_tokens ∧
      nscTok.tok (joinTexts (computeOverlap nscTok exCfgOverlap.overlap_tokens a.window).1) ≤
        exCfgOverlap.overlap_tokens ∧
      ∃ rest, b.window = (computeOverlap nscTok exCfgOverlap.overlap_tokens a.window).1 ++ rest)
      (slidingWindowRaws nscTok exCfgOverlap (splitIntoSentences exTextOverlap) []) :=
  ⟨by decide, c4_overlap_seed_contract nscTok exCfgOverlap (by decide)
    (splitIntoSentences exTextOverlap) []⟩

/-! Characterization of the sentence splitter, used by claims C7, C8 and
C9. -/

theorem getD_drop_char (l : Str) (n m : Nat) (d : Char) :
    (l.drop n).getD m d = l.getD (n + m) d := by
  simp [List.getD_eq_getElem?_getD, List.getElem?_drop]

theorem takeWhile_pred_getD (p : Char → Bool) :
    ∀ (l : Str) (j : Nat) (d : Char), j < (l.takeWhile p).length → p (l.getD j d) = true
  | [], j, d, h => by simp [List.takeWhile] at h
  | x :: xs, j, d, h => by
    by_cases hx : p x = true
    · cases j with
      | zero => simpa [List.getD] using hx
      | succ j =>
        simp only [List.takeWhile, hx, List.length_cons, if_true] at h
        have := takeWhile_pred_getD p xs j d (by omega)
        simpa [List.getD] using this
    · simp [List.takeWhile, hx] at h

/-- The verified shape of consecutive boundary ends starting from base a:
each end is within the text, strictly beyond its predecessor, and the
interval between predecessor and end contains a sentence-ending
punctuation character followed only by whitespace up to the end. -/
def PairsOK (text : Str) : Nat → List Nat → Prop
  | _, [] => True
  | a, b :: rest =>
    a < b ∧ b ≤ text.length ∧
    (∃ q, a ≤ q ∧ q + 1 < b ∧
      (text.getD q ' ' = '.' ∨ text.getD q ' ' = '!' ∨ text.getD q ' ' = '?') ∧
      ∀ r, q < r → r < b → isPyWs (text.getD r ' ') = true) ∧
    PairsOK text b rest

theorem pairsOK_mono (text : Str) :
    ∀ (l : List Nat) (a b : Nat), a ≤ b → PairsOK text b l → PairsOK text a l
  | [], _, _, _, _ => trivial
  | e :: rest, a, b, hab, h => by
    obtain ⟨h1, h2, ⟨q, hq1, hq2, hq3, hq4⟩, h5⟩ := h
    exact ⟨by omega, h2, ⟨q, by omega, hq2, hq3, hq4⟩, h5⟩

theorem fbeGo_pairsOK (text : Str) :
    ∀ (fuel : Nat) (cs : Str) (pos : Nat), cs = text.drop pos → cs.length ≤ fuel →
      PairsOK text pos (fbeGo fuel cs pos)
  | 0, cs, pos, _, hf => by
    have : cs = [] := List.eq_nil_of_length_eq_zero (by omega)
    subst this
    simp [fbeGo, PairsOK]
  | fuel + 1, [], pos, _, _ => by simp [fbeGo, PairsOK]
  | fuel + 1, c :: rest, pos, hcs, hf => by
    have hlen : pos < text.length := by
      by_contra hge
      have : text.drop pos = [] := List.drop_eq_nil_of_le (by omega)
      rw [← hcs] at this
      simp at this
    have hlen2 : rest.length + 1 = text.length - pos := by
      have := congrArg List.length hcs
      simp [List.length_drop] at this
      omega
    simp only [List.length_cons] at hf
    have hc : text.getD pos ' ' = c := by
      have := getD_drop_char text pos 0 ' '
      rw [← hcs] at this
      simpa using this.symm
    by_cases hfire : (c = '.' ∨ c = '!' ∨ c = '?') ∧ rest.takeWhile isPyWs ≠ []
    · rw [show fbeGo (fuel + 1) (c :: rest) pos =
          (pos + 1 + (rest.takeWhile isPyWs).length) ::
            fbeGo fuel (rest.drop (rest.takeWhile isPyWs).length)
              (pos + 1 + (rest.takeWhile isPyWs).length) by
        simp only [fbeGo, if_pos hfire]]
      set w := (rest.takeWhile isPyWs).length with hw
      have hw1 : 1 ≤ w := by
        have := hfire.2
        rw [hw]
        cases hne : rest.takeWhile isPyWs with
        | nil => exact absurd hne this
        | cons x xs => simp [hne]
      have hwr : w ≤ rest.length := by
        rw [hw]
        exact (List.takeWhile_prefix isPyWs).length_le
      refine ⟨by omega, by omega, ⟨pos, Nat.le_refl pos, by omega, by rw [hc]; exact hfire.1,
        ?_⟩, ?_⟩
      · intro r hr1 hr2
        have hj : r - pos - 1 < w := by omega
        have hgd : text.getD r ' ' = rest.getD (r - pos - 1) ' ' := by
          have h1 := getD_drop_char text pos (r - pos) ' '
          rw [← hcs] at h1
          have hr3 : pos + (r - pos) = r := by omega
          rw [hr3] at h1
          have h2 : (c :: rest).getD (r - pos) ' ' = rest.getD (r - pos - 1) ' ' := by
            have hrp : r - pos = (r - pos - 1) + 1 := by omega
            rw [hrp]
            simp [List.getD]
          rw [← h1, h2]
        rw [hgd]
        exact takeWhile_pred_getD isPyWs rest (r - pos - 1) ' ' hj
      · refine fbeGo_pairsOK text fuel (rest.drop w) (pos + 1 + w) ?_ ?_
        · have h1 : text.drop (pos + 1 + w) = (text.drop pos).drop (1 + w) := by
            rw [List.drop_drop]
            congr 1
            omega
          rw [h1, ← hcs]
          rw [show 1 + w = w + 1 by omega]
          rw [List.drop_succ_cons]
        · rw [List.length_drop]
          omega
    · rw [show fbeGo (fuel + 1) (c :: rest) pos = fbeGo fuel rest (pos + 1) by
        simp only [fbeGo, if_neg hfire]]
      refine pairsOK_mono text _ pos (pos + 1) (by omega) ?_
      refine fbeGo_pairsOK text fuel rest (pos + 1) ?_ (by simp at hf ⊢; omega)
      have h1 : text.drop (pos + 1) = (text.drop pos).drop 1 := by
        rw [List.drop_drop]
      rw [h1, ← hcs]
      simp

theorem findBoundaryEnds_pairsOK (text : Str) : PairsOK text 0 (findBoundaryEnds text 0) :=
  fbeGo_pairsOK text text.length text 0 (by simp) (by simp)

theorem pyLStrip_mem_of_nonws (c : Char) (hw : isPyWs c = false) :
    ∀ s : Str, c ∈ s → c ∈ pyLStrip s
  | [], h => by simp at h
  | x :: xs, h => by
    by_cases hx : isPyWs x = true
    · rw [List.mem_cons] at h
      rcases h with h | h
      · subst h
        rw [hx] at hw
        simp at hw
      · simpa [pyLStrip, List.dropWhile, hx] using
          pyLStrip_mem_of_nonws c hw xs h
    · have hx2 : isPyWs x = false := by simpa using hx
      simpa [pyLStrip, List.dropWhile, hx2] using h

theorem pyStrip_mem_of_nonws (c : Char) (s : Str) (hc : c ∈ s) (hw : isPyWs c = false) :
    c ∈ pyStrip s := by
  unfold pyStrip pyRStrip
  have h1 : c ∈ pyLStrip s := pyLStrip_mem_of_nonws c hw s hc
  have h2 : c ∈ (pyLStrip s).reverse := by simpa using h1
  have h3 := pyLStrip_mem_of_nonws c hw ((pyLStrip s).reverse) h2
  unfold pyLStrip at h3
  simpa using h3

theorem pyStrip_ne_nil_of_mem_nonws (c : Char) (s : Str) (hc : c ∈ s)
    (hw : isPyWs c = false) : pyStrip s ≠ [] := by
  intro h
  have := pyStrip_mem_of_nonws c s hc hw
  rw [h] at this
  simp at this

theorem slice_mem (text : Str) (a b q : Nat) (d : Char) (h1 : a ≤ q) (h2 : q < b)
    (h3 : b ≤ text.length) : text.getD q d ∈ slice text a b := by
  unfold slice
  have hq : text.getD q d = (text.drop a).getD (q - a) d := by
    rw [getD_drop_char]
    congr 1
    omega
  rw [hq]
  have hlt : q - a < b - a := by omega
  have hlen : q - a < (text.drop a).length := by
    rw [List.length_drop]
    omega
  have hget : ((text.drop a).take (b - a)).getD (q - a) d = (text.drop a).getD (q - a) d := by
    simp [List.getD_eq_getElem?_getD, List.getElem?_take, hlt]
  rw [← hget]
  have hlen2 : q - a < ((text.drop a).take (b - a)).length := by
    rw [List.length_take]
    omega
  rw [List.getD_eq_getElem _ _ hlen2]
  exact List.getElem_mem _

/-- The spans the fold over the boundary ends produces when every slice
strips non-empty (which PairsOK guarantees). -/
def spansOf (text : Str) : Nat → List Nat → List Sentence
  | _, [] => []
  | cur, e :: rest => ⟨pyStrip (slice text cur e), cur, e⟩ :: spansOf text e rest

/-- The last boundary end, or the base when there is none (the value of
current_pos after the match loop). -/
def lastOrBase (a : Nat) : List Nat → Nat
  | [] => a
  | e :: rest => lastOrBase e rest

theorem pairsOK_strip_ne (text : Str) (a b : Nat)
    (h : ∃ q, a ≤ q ∧ q + 1 < b ∧
      (text.getD q ' ' = '.' ∨ text.getD q ' ' = '!' ∨ text.getD q ' ' = '?') ∧
      ∀ r, q < r → r < b → isPyWs (text.getD r ' ') = true)
    (hb : b ≤ text.length) :
    pyStrip (slice text a b) ≠ [] := by
  obtain ⟨q, hq1, hq2, hq3, _⟩ := h
  have hmem : text.getD q ' ' ∈ slice text a b := slice_mem text a b q ' ' hq1 (by omega) hb
  have hnw : isPyWs (text.getD q ' ') = false := by
    rcases hq3 with h | h | h <;> rw [h] <;> decide
  exact pyStrip_ne_nil_of_mem_nonws _ _ hmem hnw

theorem split_fold_spec (text : Str) :
    ∀ (ends : List Nat) (acc : List Sentence) (cur : Nat), PairsOK text cur ends →
      ends.foldl (splitStep text) (acc, cur) =
      (acc ++ spansOf text cur ends, lastOrBase cur ends)
  | [], acc, cur, _ => by simp [spansOf, lastOrBase]
  | e :: rest, acc, cur, h => by
    obtain ⟨h1, h2, h3, h4⟩ := h
    have hne : pyStrip (slice text cur e) ≠ [] := pairsOK_strip_ne text cur e h3 h2
    rw [List.foldl_cons]
    have hstep : splitStep text (acc, cur) e =
        (acc ++ [⟨pyStrip (slice text cur e), cur, e⟩], e) := by
      unfold splitStep
      dsimp only
      rw [if_pos hne]
    rw [hstep, split_fold_spec text rest _ e h4]
    simp [spansOf, lastOrBase]

/-- The splitter, rewritten through the verified fold: the boundary spans
followed by the (possibly dropped) remaining span. -/
theorem split_eq (text : Str) :
    splitIntoSentences text =
      (if lastOrBase 0 (findBoundaryEnds text 0) < text.length then
        (if pyStrip (text.drop (lastOrBase 0 (findBoundaryEnds text 0))) ≠ [] then
          spansOf text 0 (findBoundaryEnds text 0) ++
            [⟨pyStrip (text.drop (lastOrBase 0 (findBoundaryEnds text 0))),
              lastOrBase 0 (findBoundaryEnds text 0), text.length⟩]
        else spansOf text 0 (findBoundaryEnds text 0))
      else spansOf text 0 (findBoundaryEnds text 0)) := by
  unfold splitIntoSentences
  dsimp only
  rw [split_fold_spec text (findBoundaryEnds text 0) [] 0 (findBoundaryEnds_pairsOK text)]
  simp

theorem spansOf_head_start (text : Str) :
    ∀ (ends : List Nat) (cur : Nat) (s : Sentence),
      (spansOf text cur ends).head? = some s → s.start = cur
  | [], _, _, h => by simp [spansOf] at h
  | e :: rest, cur, s, h => by
    simp only [spansOf, List.head?_cons, Option.some.injEq] at h
    subst h
    rfl

theorem spansOf_chain (text : Str) :
    ∀ (ends : List Nat) (cur : Nat),
      List.Chain' (fun a b => b.start = a.end_) (spansOf text cur ends)
  | [], _ => List.chain'_nil
  | e :: rest, cur => by
    rw [show spansOf text cur (e :: rest) =
        (⟨pyStrip (slice text cur e), cur, e⟩ : Sentence) :: spansOf text e rest from rfl]
    rw [List.chain'_cons']
    refine ⟨fun b hb => ?_, spansOf_chain text rest e⟩
    simp only [Option.mem_def] at hb
    exact spansOf_head_start text rest e b hb

theorem spansOf_mem_props (text : Str) :
    ∀ (ends : List Nat) (cur : Nat), PairsOK text cur ends →
      ∀ s ∈ spansOf text cur ends, s.start < s.end_ ∧ s.end_ ≤ text.length ∧
        ∃ q, s.start ≤ q ∧ q + 1 < s.end_ ∧
          (text.getD q ' ' = '.' ∨ text.getD q ' ' = '!' ∨ text.getD q ' ' = '?') ∧
          ∀ r, q < r → r < s.end_ → isPyWs (text.getD r ' ') = true
  | [], _, _, s, hs => by simp [spansOf] at hs
  | e :: rest, cur, h, s, hs => by
    obtain ⟨h1, h2, h3, h4⟩ := h
    rw [show spansOf text cur (e :: rest) =
        (⟨pyStrip (slice text cur e), cur, e⟩ : Sentence) :: spansOf text e rest from rfl,
      List.mem_cons] at hs
    rcases hs with hs | hs
    · subst hs
      exact ⟨h1, h2, h3⟩
    · exact spansOf_mem_props text rest e h4 s hs

theorem spansOf_last_end (text : Str) :
    ∀ (ends : List Nat) (cur : Nat) (x : Sentence),
      (spansOf text cur ends).getLast? = some x → x.end_ = lastOrBase cur ends
  | [], _, _, h => by simp [spansOf] at h
  | [e], cur, x, h => by
    simp only [spansOf, List.getLast?_singleton, Option.some.injEq] at h
    subst h
    rfl
  | e :: e2 :: rest, cur, x, h => by
    rw [show spansOf text cur (e :: e2 :: rest) =
        (⟨pyStrip (slice text cur e), cur, e⟩ : Sentence) :: spansOf text e (e2 :: rest)
        from rfl] at h
    rw [show spansOf text e (e2 :: rest) =
        (⟨pyStrip (slice text e e2), e, e2⟩ : Sentence) :: spansOf text e2 rest from rfl] at h
    rw [List.getLast?_cons_cons] at h
    exact spansOf_last_end text (e2 :: rest) e x h

theorem fbeGo_eq_nil_of_no_punct :
    ∀ (fuel : Nat) (cs : Str) (pos : Nat), (∀ c ∈ cs, ¬(c = '.' ∨ c = '!' ∨ c = '?')) →
      fbeGo fuel cs pos = []
  | 0, _, _, _ => by simp [fbeGo]
  | _ + 1, [], _, _ => by simp [fbeGo]
  | fuel + 1, c :: rest, pos, h => by
    have hc := h c (by simp)
    rw [show fbeGo (fuel + 1) (c :: rest) pos = fbeGo fuel rest (pos + 1) by
      simp only [fbeGo]
      rw [if_neg (fun hk => hc hk.1)]]
    exact fbeGo_eq_nil_of_no_punct fuel rest (pos + 1) (fun x hx => h x (by simp [hx]))

theorem pyStrip_eq_nil_of_all_ws (s : Str) (h : ∀ c ∈ s, isPyWs c = true) :
    pyStrip s = [] := by
  unfold pyStrip pyLStrip pyRStrip
  have h1 : s.dropWhile isPyWs = [] := List.dropWhile_eq_nil_iff.mpr h
  rw [h1]
  simp

/-- Well-formedness of the splitter output: consecutive spans tile (the
next span starts where the previous one ended) and every span is
non-degenerate. -/
def WfSents (l : List Sentence) : Prop :=
  List.Chain' (fun a b => b.start = a.end_) l ∧ ∀ s ∈ l, s.start < s.end_

theorem split_wf (text : Str) : WfSents (splitIntoSentences text) := by
  rw [split_eq]
  have hpo := findBoundaryEnds_pairsOK text
  by_cases h1 : lastOrBase 0 (findBoundaryEnds text 0) < text.length
  · rw [if_pos h1]
    by_cases h2 : pyStrip (text.drop (lastOrBase 0 (findBoundaryEnds text 0))) ≠ []
    · rw [if_pos h2]
      constructor
      · rw [List.chain'_append]
        refine ⟨spansOf_chain text _ 0, List.chain'_singleton _, fun x hx y hy => ?_⟩
        simp only [List.head?_cons, Option.mem_def, Option.some.injEq] at hy
        subst hy
        exact (spansOf_last_end text _ 0 x hx).symm
      · intro s hs
        rw [List.mem_append] at hs
        rcases hs with hs | hs
        · exact (spansOf_mem_props text _ 0 hpo s hs).1
        · simp only [List.mem_singleton] at hs
          subst hs
          exact h1
    · rw [if_neg h2]
      exact ⟨spansOf_chain text _ 0, fun s hs => (spansOf_mem_props text _ 0 hpo s hs).1⟩
  · rw [if_neg h1]
    exact ⟨spansOf_chain text _ 0, fun s hs => (spansOf_mem_props text _ 0 hpo s hs).1⟩

theorem split_head_start (text : Str) :
    ∀ s : Sentence, (splitIntoSentences text).head? = some s → s.start = 0 := by
  intro s hs
  rw [split_eq] at hs
  by_cases h1 : lastOrBase 0 (findBoundaryEnds text 0) < text.length
  · rw [if_pos h1] at hs
    by_cases h2 : pyStrip (text.drop (lastOrBase 0 (findBoundaryEnds text 0))) ≠ []
    · rw [if_pos h2] at hs
      cases hsp : spansOf text 0 (findBoundaryEnds text 0) with
      | nil =>
        rw [hsp] at hs
        simp only [List.nil_append, List.head?_cons, Option.some.injEq] at hs
        subst hs
        cases hends : findBoundaryEnds text 0 with
        | nil => rfl
        | cons e rest =>
          rw [hends] at hsp
          simp [spansOf] at hsp
      | cons x xs =>
        rw [hsp] at hs
        simp only [List.cons_append, List.head?_cons, Option.some.injEq] at hs
        refine spansOf_head_start text (findBoundaryEnds text 0) 0 s ?_
        rw [hsp]
        simpa using hs
    · rw [if_neg h2] at hs
      exact spansOf_head_start text (findBoundaryEnds text 0) 0 s hs
  · rw [if_neg h1] at hs
    exact spansOf_head_start text (findBoundaryEnds text 0) 0 s hs

/-! Claim C8. -/

/-- C8 counterexample: a whitespace-only text contains no sentence-ending
punctuation, yet the splitter returns the empty sequence instead of one
sentence spanning the entire input, because the remaining text strips to
empty and is dropped. -/
theorem c8_counterexample :
    (∀ c ∈ (" ").toList, ¬(c = '.' ∨ c = '!' ∨ c = '?')) ∧
    (" ").toList ≠ [] ∧
    splitIntoSentences ((" ").toList) = [] := by decide

/-- C8 amended: the splitter returns [] on empty input AND on
whitespace-only input (the amendment); text without sentence-ending
punctuation that is not whitespace-only yields exactly one sentence
spanning the entire input; spans tile (the next starts where the previous
ends, so end of sentence i ≤ start of sentence i+1) and are
non-degenerate and within the text; every span either ends at a boundary
match — a [.!?] character followed by whitespace running to the span's
end — or ends at end-of-text; and remaining text after the last boundary
whose strip is non-empty is emitted as a final span ending at
end-of-text. -/
theorem c8_splitter_amended (text : Str) :
    (text = [] → splitIntoSentences text = []) ∧
    ((∀ c ∈ text, isPyWs c = true) → splitIntoSentences text = []) ∧
    ((∀ c ∈ text, ¬(c = '.' ∨ c = '!' ∨ c = '?')) → (∃ c ∈ text, isPyWs c = false) →
      splitIntoSentences text = [⟨pyStrip text, 0, text.length⟩]) ∧
    List.Chain' (fun a b => b.start = a.end_) (splitIntoSentences text) ∧
    (∀ s ∈ splitIntoSentences text, s.start < s.end_ ∧ s.end_ ≤ text.length) ∧
    (∀ s ∈ splitIntoSentences text,
      (∃ q, s.start ≤ q ∧ q + 1 < s.end_ ∧
        (text.getD q ' ' = '.' ∨ text.getD q ' ' = '!' ∨ text.getD q ' ' = '?') ∧
        ∀ r, q < r → r < s.end_ → isPyWs (text.getD r ' ') = true) ∨
      s.end_ = text.length) ∧
    (lastOrBase 0 (findBoundaryEnds text 0) < text.length →
      pyStrip (text.drop (lastOrBase 0 (findBoundaryEnds text 0))) ≠ [] →
      (splitIntoSentences text).getLast? =
        some ⟨pyStrip (text.drop (lastOrBase 0 (findBoundaryEnds text 0))),
          lastOrBase 0 (findBoundaryEnds text 0), text.length⟩) := by
  have hpo := findBoundaryEnds_pairsOK text
  refine ⟨?_, ?_, ?_, (split_wf text).1, ?_, ?_, ?_⟩
  · intro h
    subst h
    rfl
  · intro hws
    have hnp : ∀ c ∈ text, ¬(c = '.' ∨ c = '!' ∨ c = '?') := by
      intro c hc hp
      have := hws c hc
      rcases hp with h | h | h <;> rw [h] at this <;> simp [isPyWs] at this
    have hends : findBoundaryEnds text 0 = [] := by
      unfold findBoundaryEnds
      exact fbeGo_eq_nil_of_no_punct text.length text 0 hnp
    rw [split_eq, hends]
    simp only [lastOrBase, spansOf, List.drop_zero]
    by_cases hl : 0 < text.length
    · rw [if_pos hl, if_neg (by simpa using pyStrip_eq_nil_of_all_ws text hws)]
    · rw [if_neg hl]
  · intro hnp hnw
    have hends : findBoundaryEnds text 0 = [] := by
      unfold findBoundaryEnds
      exact fbeGo_eq_nil_of_no_punct text.length text 0 hnp
    obtain ⟨c, hc, hcw⟩ := hnw
    have hl : 0 < text.length := List.length_pos.mpr (by rintro rfl; simp at hc)
    have hne : pyStrip text ≠ [] := pyStrip_ne_nil_of_mem_nonws c text hc hcw
    rw [split_eq, hends]
    simp only [lastOrBase, spansOf, List.drop_zero]
    rw [if_pos hl, if_pos hne]
    simp
  · intro s hs
    refine ⟨(split_wf text).2 s hs, ?_⟩
    rw [split_eq] at hs
    by_cases h1 : lastOrBase 0 (findBoundaryEnds text 0) < text.length
    · rw [if_pos h1] at hs
      by_cases h2 : pyStrip (text.drop (lastOrBase 0 (findBoundaryEnds text 0))) ≠ []
      · rw [if_pos h2, List.mem_append] at hs
        rcases hs with hs | hs
        · exact (spansOf_mem_props text _ 0 hpo s hs).2.1
        · simp only [List.mem_singleton] at hs
          subst hs
          exact Nat.le_refl _
      · rw [if_neg h2] at hs
        exact (spansOf_mem_props text _ 0 hpo s hs).2.1
    · rw [if_neg h1] at hs
      exact (spansOf_mem_props text _ 0 hpo s hs).2.1
  · intro s hs
    rw [split_eq] at hs
    by_cases h1 : lastOrBase 0 (findBoundaryEnds text 0) < text.length
    · rw [if_pos h1] at hs
      by_cases h2 : pyStrip (text.drop (lastOrBase 0 (findBoundaryEnds text 0))) ≠ []
      · rw [if_pos h2, List.mem_append] at hs
        rcases hs with hs | hs
        · exact Or.inl (spansOf_mem_props text _ 0 hpo s hs).2.2
        · simp only [List.mem_singleton] at hs
          subst hs
          exact Or.inr rfl
      · rw [if_neg h2] at hs
        exact Or.inl (spansOf_mem_props text _ 0 hpo s hs).2.2
    · rw [if_neg h1] at hs
      exact Or.inl (spansOf_mem_props text _ 0 hpo s hs).2.2
  · intro h1 h2
    rw [split_eq, if_pos h1, if_pos h2]
    exact List.getLast?_concat _

/-- C8 witness: the amended splitter contract applied at concrete inputs —
the whitespace-only amendment and the no-punctuation case. -/
theorem c8_splitter_amended_witness :
    (∀ c ∈ (" ").toList, isPyWs c = true) ∧
    splitIntoSentences ((" ").toList) = [] ∧
    (∀ c ∈ ("ab").toList, ¬(c = '.' ∨ c = '!' ∨ c = '?')) ∧
    (∃ c ∈ ("ab").toList, isPyWs c = false) ∧
    splitIntoSentences (("ab").toList) = [⟨pyStrip (("ab").toList), 0, ("ab").toList.length⟩] :=
  ⟨by decide, (c8_splitter_amended ((" ").toList)).2.1 (by decide), by decide, by decide,
   (c8_splitter_amended (("ab").toList)).2.2.1 (by decide) (by decide)⟩

/-! Claim C9. -/

theorem split_eq_nil_of_all_ws (text : Str) (hws : ∀ c ∈ text, isPyWs c = true) :
    splitIntoSentences text = [] := by
  have hnp : ∀ c ∈ text, ¬(c = '.' ∨ c = '!' ∨ c = '?') := by
    intro c hc hp
    have := hws c hc
    rcases hp with h | h | h <;> rw [h] at this <;> simp [isPyWs] at this
  have hends : findBoundaryEnds text 0 = [] := by
    unfold findBoundaryEnds
    exact fbeGo_eq_nil_of_no_punct text.length text 0 hnp
  rw [split_eq, hends]
  simp only [lastOrBase, spansOf, List.drop_zero]
  by_cases hl : 0 < text.length
  · rw [if_pos hl, if_neg (by simpa using pyStrip_eq_nil_of_all_ws text hws)]
  · rw [if_neg hl]

theorem splitLines_mem (c : Char) :
    ∀ (s : Str) (l : Str), l ∈ splitLines s → c ∈ l → c ∈ s
  | [], l, hl, hc => by
    simp only [splitLines, List.mem_singleton] at hl
    subst hl
    simp at hc
  | x :: rest, l, hl, hc => by
    by_cases hx : x = '\n'
    · rw [show splitLines (x :: rest) = [] :: splitLines rest by
        simp only [splitLines, if_pos hx]] at hl
      rw [List.mem_cons] at hl
      rcases hl with hl | hl
      · subst hl
        simp at hc
      · exact List.mem_cons_of_mem x (splitLines_mem c rest l hl hc)
    · cases hsp : splitLines rest with
      | nil =>
        rw [show splitLines (x :: rest) = [[x]] by
          simp only [splitLines, if_neg hx, hsp]] at hl
        simp only [List.mem_singleton] at hl
        subst hl
        simp only [List.mem_singleton] at hc
        subst hc
        simp
      | cons l0 ls =>
        rw [show splitLines (x :: rest) = (x :: l0) :: ls by
          simp only [splitLines, if_neg hx, hsp]] at hl
        rw [List.mem_cons] at hl
        rcases hl with hl | hl
        · subst hl
          rw [List.mem_cons] at hc
          rcases hc with hc | hc
          · subst hc
            simp
          · refine List.mem_cons_of_mem x (splitLines_mem c rest l0 ?_ hc)
            rw [hsp]
            simp
        · refine List.mem_cons_of_mem x (splitLines_mem c rest l ?_ hc)
          rw [hsp]
          simp [hl]

theorem enumFromIdx_mem {α : Type} :
    ∀ (L : List α) (n i : Nat) (x : α), (i, x) ∈ enumFromIdx n L → x ∈ L
  | [], _, _, _, h => by simp [enumFromIdx] at h
  | a :: rest, n, i, x, h => by
    rw [show enumFromIdx n (a :: rest) = (n, a) :: enumFromIdx (n + 1) rest from rfl,
      List.mem_cons] at h
    rcases h with h | h
    · simp only [Prod.mk.injEq] at h
      simp [h.2]
    · exact List.mem_cons_of_mem a (enumFromIdx_mem rest (n + 1) i x h)

theorem extractStructure_nil_of_ws (text : Str) (hws : ∀ c ∈ text, isPyWs c = true) :
    extractStructure text = [] := by
  unfold extractStructure
  rw [List.filterMap_eq_nil]
  intro p hp
  have hline : ∀ c ∈ p.2, isPyWs c = true := by
    intro c hc
    exact hws c (splitLines_mem c text p.2 (enumFromIdx_mem (splitLines text) 0 p.1 p.2
      (by rcases p with ⟨i, l⟩; exact hp)) hc)
  have hstrip : pyStrip p.2 = [] := pyStrip_eq_nil_of_all_ws p.2 hline
  simp [hstrip]

theorem slidingWindowChunks_nil_of_no_sents (tk : Tokenizer) (cfg : ChunkConfig) (text : Str)
    (structures : List StructElem) (pageBreaks : List Nat)
    (hsent : splitIntoSentences text = []) :
    slidingWindowChunks tk cfg text structures pageBreaks = [] := by
  unfold slidingWindowChunks slidingWindowRaws
  rw [hsent]
  simp [swGo, initState]

/-- C9: for every configuration, chunking an empty or whitespace-only text
returns the empty chunk list (and, the embedding being total, no error is
raised). -/
theorem c9_empty_input (tk : Tokenizer) (cfg : ChunkConfig) (pageBreaks : List Nat)
    (hvalid : cfg.min_tokens < cfg.max_tokens ∧ cfg.overlap_tokens < cfg.max_tokens)
    (text : Str) (hws : ∀ c ∈ text, isPyWs c = true) :
    chunkText tk cfg text pageBreaks = [] := by
  unfold chunkText
  have hsent := split_eq_nil_of_all_ws text hws
  have hstr : (if cfg.detect_structure then extractStructure text else []) = [] := by
    by_cases hd : cfg.detect_structure
    · rw [if_pos hd]
      exact extractStructure_nil_of_ws text hws
    · rw [if_neg hd]
  rw [hstr]
  dsimp only
  rw [slidingWindowChunks_nil_of_no_sents tk cfg text [] pageBreaks hsent]
  simp [deduplicateChunks, deduplicateChunksGo]

/-- C9 witness: a whitespace-only text with a valid configuration. -/
theorem c9_empty_input_witness :
    (exCfgOverlap.min_tokens < exCfgOverlap.max_tokens ∧
      exCfgOverlap.overlap_tokens < exCfgOverlap.max_tokens) ∧
    (∀ c ∈ (" ").toList, isPyWs c = true) ∧
    chunkText nscTok exCfgOverlap ((" ").toList) [] = [] :=
  ⟨by decide, by decide,
   c9_empty_input nscTok exCfgOverlap [] (by decide) ((" ").toList) (by decide)⟩

/-! Claim C7. -/

/-- C7 counterexample: whitespace-only input with a valid configuration
yields no chunks, so character position 0 of the input is covered by no
chunk's [start_char, end_char) range. -/
theorem c7_counterexample :
    exCfgOverlap.min_tokens < exCfgOverlap.max_tokens ∧
    exCfgOverlap.overlap_tokens < exCfgOverlap.max_tokens ∧
    0 < ((" ").toList).length ∧
    ¬ ∃ c ∈ slidingWindowChunks nscTok exCfgOverlap ((" ").toList) [] [],
        c.start_char ≤ 0 ∧ 0 < c.end_char := by decide

/-- A position is covered by one of the emitted windows. -/
def rawCover (rs : List RawChunk) (pos : Nat) : Prop :=
  ∃ r ∈ rs, r.startChar ≤ pos ∧ pos < windowEnd r.window

/-- Coverage loop invariant at watermark E (the end of the last processed
sentence, 0 initially): every earlier position is covered by an emitted
window or by the current one; a non-empty current window is a tiled,
non-degenerate run ending exactly at E and starting at or before E; an
empty one leaves the next start at or before E. -/
def CovInv (st : SWState) (E : Nat) : Prop :=
  (∀ pos, pos < E → rawCover st.chunks pos ∨
    (st.current ≠ [] ∧ st.startChar ≤ pos ∧ pos < windowEnd st.current)) ∧
  (st.current ≠ [] → windowEnd st.current = E ∧ st.startChar ≤ E ∧
    List.Chain' (fun a b => b.start = a.end_) st.current ∧
    (∀ x ∈ st.current, x.start < x.end_)) ∧
  (st.current = [] → st.startChar ≤ E)

theorem windowEnd_cons_cons (x y : Sentence) (rest : List Sentence) :
    windowEnd (x :: y :: rest) = windowEnd (y :: rest) := by
  simp [windowEnd, List.getLastD_cons]

theorem windowEnd_concat (w : List Sentence) (s : Sentence) :
    windowEnd (w ++ [s]) = s.end_ := by
  unfold windowEnd
  rw [List.getLastD_concat]

theorem windowEnd_members :
    ∀ (w : List Sentence), List.Chain' (fun a b => b.start = a.end_) w →
      (∀ x ∈ w, x.start < x.end_) → ∀ x ∈ w, x.end_ ≤ windowEnd w
  | [], _, _, x, hx => by simp at hx
  | [a], _, _, x, hx => by
    simp only [List.mem_singleton] at hx
    subst hx
    simp [windowEnd, List.getLastD]
  | a :: b :: rest2, hch, hlt, x, hx => by
    rw [windowEnd_cons_cons]
    rw [List.chain'_cons] at hch
    rw [List.mem_cons] at hx
    have ih := windowEnd_members (b :: rest2) hch.2
      (fun y hy => hlt y (List.mem_cons_of_mem a hy))
    rcases hx with hx | hx
    · subst hx
      have hb : b.end_ ≤ windowEnd (b :: rest2) := ih b (by simp)
      have h1 : x.end_ = b.start := (hch.1).symm
      have h2 := hlt b (by simp)
      omega
    · exact ih x hx

theorem windowEnd_suffix (seed w : List Sentence) (hsuf : seed <:+ w) (hne : seed ≠ []) :
    windowEnd seed = windowEnd w := by
  obtain ⟨t, ht⟩ := hsuf
  subst ht
  induction t with
  | nil => simp
  | cons hd tl ih =>
    rw [List.cons_append]
    cases hts : tl ++ seed with
    | nil =>
      rcases List.append_eq_nil.mp hts with ⟨_, h2⟩
      exact absurd h2 hne
    | cons b rest =>
      rw [show windowEnd (hd :: b :: rest) = windowEnd (b :: rest) from
        windowEnd_cons_cons hd b rest, ← hts]
      exact ih

theorem chain_suffix (seed w : List Sentence) (hsuf : seed <:+ w)
    (hch : List.Chain' (fun a b => b.start = a.end_) w) :
    List.Chain' (fun a b => b.start = a.end_) seed := by
  obtain ⟨t, ht⟩ := hsuf
  subst ht
  exact (List.chain'_append.mp hch).2.1

theorem seed_head_start_le (tk : Tokenizer) (k : Nat) (w : List Sentence)
    (hch : List.Chain' (fun a b => b.start = a.end_) w)
    (hlt : ∀ x ∈ w, x.start < x.end_)
    (hne : (computeOverlap tk k w).1 ≠ []) :
    ((computeOverlap tk k w).1.headD default).start ≤ windowEnd w := by
  set seed := (computeOverlap tk k w).1 with hseed
  have hsuf : seed <:+ w := computeOverlap_suffix tk k w
  cases hs : seed with
  | nil => exact absurd hs hne
  | cons x rest =>
    have hx : x ∈ w := hsuf.subset (by rw [hs]; simp)
    have h1 := hlt x hx
    have h2 := windowEnd_members w hch hlt x hx
    simp only [hs, List.headD_cons]
    omega

theorem covInv_hard (tk : Tokenizer) (cfg : ChunkConfig) (s : Sentence) (st : SWState)
    (E : Nat) (hSE : s.start = E) (h : CovInv st E) : CovInv (hardPart tk cfg s st) E := by
  obtain ⟨h1, h2, h3⟩ := h
  unfold hardPart
  by_cases hfire : st.tokens + tk.tok s.text > cfg.max_tokens ∧ st.current ≠ []
  · rw [if_pos hfire]
    have hcur := hfire.2
    obtain ⟨hwe, hsc, hch, hlt⟩ := h2 hcur
    have hcov : ∀ pos, pos < E →
        rawCover (st.chunks ++ [(⟨st.current, st.startChar, st.index⟩ : RawChunk)]) pos := by
      intro pos hpos
      rcases h1 pos hpos with hc | ⟨_, ha, hb⟩
      · obtain ⟨r, hr, hra, hrb⟩ := hc
        exact ⟨r, by simp [hr], hra, hrb⟩
      · exact ⟨⟨st.current, st.startChar, st.index⟩, by simp, ha, by
          rw [show windowEnd (⟨st.current, st.startChar, st.index⟩ : RawChunk).window
            = windowEnd st.current from rfl]; exact hb⟩
    by_cases hk : 0 < cfg.overlap_tokens
    · rw [if_pos hk]
      refine ⟨fun pos hpos => Or.inl (hcov pos hpos), ?_, ?_⟩
      · intro hne
        dsimp only at hne ⊢
        rw [if_pos hne]
        have hsuf := computeOverlap_suffix tk cfg.overlap_tokens st.current
        refine ⟨by rw [windowEnd_suffix _ _ hsuf hne, hwe], ?_,
          chain_suffix _ _ hsuf hch, fun x hx => hlt x (hsuf.subset hx)⟩
        rw [← hwe]
        exact seed_head_start_le tk cfg.overlap_tokens st.current hch hlt hne
      · intro hnil
        dsimp only at hnil ⊢
        rw [if_neg (by rw [hnil]; simp)]
        exact hsc
    · rw [if_neg hk]
      refine ⟨fun pos hpos => Or.inl (hcov pos hpos), fun hne => absurd rfl hne,
        fun _ => ?_⟩
      dsimp only
      omega
  · rw [if_neg hfire]
    exact ⟨h1, h2, h3⟩

theorem covInv_append (tk : Tokenizer) (s : Sentence) (st : SWState) (E : Nat)
    (hSE : s.start = E) (hlt : s.start < s.end_) (h : CovInv st E) :
    CovInv (appendPart tk s st) s.end_ := by
  obtain ⟨h1, h2, h3⟩ := h
  unfold appendPart
  have hwe : windowEnd (st.current ++ [s]) = s.end_ := windowEnd_concat st.current s
  have hstart : st.startChar ≤ E := by
    by_cases hcur : st.current = []
    · exact h3 hcur
    · exact (h2 hcur).2.1
  refine ⟨?_, ?_, ?_⟩
  · intro pos hpos
    dsimp only
    by_cases hpE : pos < E
    · rcases h1 pos hpE with hc | ⟨hne, ha, hb⟩
      · exact Or.inl hc
      · refine Or.inr ⟨by simp, ha, ?_⟩
        rw [hwe]
        have := (h2 hne).1
        omega
    · refine Or.inr ⟨by simp, by omega, by rw [hwe]; omega⟩
  · intro _
    dsimp only
    refine ⟨hwe, by omega, ?_, ?_⟩
    · by_cases hcur : st.current = []
      · rw [hcur]
        simp
      · obtain ⟨hwe2, _, hch, _⟩ := h2 hcur
        rw [List.chain'_append]
        refine ⟨hch, List.chain'_singleton s, fun x hx y hy => ?_⟩
        simp only [List.head?_cons, Option.mem_def, Option.some.injEq] at hy
        subst hy
        have : x.end_ = windowEnd st.current := by
          unfold windowEnd
          rw [List.getLastD_eq_getLast?, hx]
          rfl
        omega
    · intro x hx
      rw [List.mem_append] at hx
      rcases hx with hx | hx
      · by_cases hcur : st.current = []
        · rw [hcur] at hx
          simp at hx
        · exact (h2 hcur).2.2.2 x hx
      · simp only [List.mem_singleton] at hx
        subst hx
        exact hlt
  · intro hnil
    dsimp only at hnil
    exact absurd hnil (by simp)

theorem covInv_soft (tk : Tokenizer) (cfg : ChunkConfig) (sentences : List Sentence)
    (structures : List StructElem) (i : Nat) (st : SWState) (E : Nat)
    (htile : i + 1 < sentences.length → (sentences.getD (i + 1) default).start = E)
    (h : CovInv st E) : CovInv (softPart tk cfg sentences structures i st) E := by
  obtain ⟨h1, h2, h3⟩ := h
  unfold softPart
  by_cases hfire : cfg.min_tokens ≤ st.tokens ∧ isGoodBreakPoint i sentences structures = true
  · rw [if_pos hfire]
    by_cases hrem : (((sentences.drop (i + 1)).take 4).map (fun s => tk.tok s.text)).sum * 2 <
        cfg.min_tokens
    · rw [if_pos hrem]
      exact ⟨h1, h2, h3⟩
    · rw [if_neg hrem]
      have hstart : st.startChar ≤ E := by
        by_cases hcur : st.current = []
        · exact h3 hcur
        · exact (h2 hcur).2.1
      have hcov : ∀ pos, pos < E →
          rawCover (st.chunks ++ [(⟨st.current, st.startChar, st.index⟩ : RawChunk)]) pos := by
        intro pos hpos
        rcases h1 pos hpos with hc | ⟨_, ha, hb⟩
        · obtain ⟨r, hr, hra, hrb⟩ := hc
          exact ⟨r, by simp [hr], hra, hrb⟩
        · exact ⟨⟨st.current, st.startChar, st.index⟩, by simp, ha, hb⟩
      by_cases hk : 0 < cfg.overlap_tokens ∧ i + 1 < sentences.length
      · rw [if_pos hk]
        refine ⟨fun pos hpos => Or.inl (hcov pos hpos), ?_, ?_⟩
        · intro hne
          dsimp only at hne ⊢
          rw [if_pos hne]
          have hcur : st.current ≠ [] := by
            intro hnil
            rw [show computeOverlap tk cfg.overlap_tokens st.current
                = computeOverlapGo tk cfg.overlap_tokens st.current.reverse [] 0 from rfl,
              hnil] at hne
            simp [computeOverlapGo] at hne
          obtain ⟨hwe, hsc, hch, hlt⟩ := h2 hcur
          have hsuf := computeOverlap_suffix tk cfg.overlap_tokens st.current
          refine ⟨by rw [windowEnd_suffix _ _ hsuf hne, hwe], ?_,
            chain_suffix _ _ hsuf hch, fun x hx => hlt x (hsuf.subset hx)⟩
          rw [← hwe]
          exact seed_head_start_le tk cfg.overlap_tokens st.current hch hlt hne
        · intro hnil
          dsimp only at hnil ⊢
          rw [if_neg (by rw [hnil]; simp)]
          exact hstart
      · rw [if_neg hk]
        refine ⟨fun pos hpos => Or.inl (hcov pos hpos), fun hne => absurd rfl hne, fun _ => ?_⟩
        dsimp only
        by_cases hlen : i + 1 < sentences.length
        · rw [if_pos hlen, htile hlen]
        · rw [if_neg hlen]
          exact hstart
  · rw [if_neg hfire]
    exact ⟨h1, h2, h3⟩

/-- The end of the last sentence of rem, or E when rem is empty (the
coverage watermark after processing rem). -/
def lastEndOr (E : Nat) (rem : List Sentence) : Nat :=
  match rem.getLast? with
  | some s => s.end_
  | none => E

theorem lastEndOr_cons (E : Nat) (s : Sentence) (rest : List Sentence) :
    lastEndOr E (s :: rest) = lastEndOr s.end_ rest := by
  cases rest with
  | nil => rfl
  | cons b r =>
    obtain ⟨x, hx⟩ : ∃ x, (b :: r).getLast? = some x := by
      cases h : (b :: r).getLast? with
      | none => exact absurd (List.getLast?_eq_none_iff.mp h) (by simp)
      | some x => exact ⟨x, rfl⟩
    unfold lastEndOr
    rw [List.getLast?_cons_cons, hx]

theorem covGo (tk : Tokenizer) (cfg : ChunkConfig) (structures : List StructElem)
    (sentences : List Sentence) (hwf : WfSents sentences) :
    ∀ (rem : List Sentence) (i : Nat) (st : SWState) (E : Nat),
      rem = sentences.drop i → CovInv st E →
      (∀ s0 ∈ rem.head?, s0.start = E) →
      CovInv (swGo tk cfg sentences structures rem i st) (lastEndOr E rem)
  | [], _, st, E, _, hinv, _ => hinv
  | s :: rest, i, st, E, hrem, hinv, hhead => by
    have hs : sentences.getD i default = s := by
      rw [List.getD_eq_getElem?_getD, ← List.head?_drop, ← hrem]
      rfl
    have hSE : s.start = E := hhead s (by simp)
    have hmem : s ∈ sentences := (List.drop_suffix i sentences).subset (by
      rw [← hrem]; simp)
    have hlt : s.start < s.end_ := hwf.2 s hmem
    have hchd : List.Chain' (fun a b => b.start = a.end_) (s :: rest) := by
      rw [hrem]
      have h0 := hwf.1
      conv at h0 => rw [← List.take_append_drop i sentences]
      exact (List.chain'_append.mp h0).2.1
    have hrest : rest = sentences.drop (i + 1) := by
      have h1 : sentences.drop (i + 1) = (sentences.drop i).drop 1 := by
        rw [List.drop_drop]
      rw [h1, ← hrem, List.drop_one, List.tail_cons]
    have htile : i + 1 < sentences.length → (sentences.getD (i + 1) default).start = s.end_ := by
      intro hlen
      have hne : sentences.drop (i + 1) ≠ [] := by
        intro h0
        rw [List.drop_eq_nil_iff_le] at h0
        omega
      rw [← hrest] at hne
      cases hr : rest with
      | nil => exact absurd hr hne
      | cons x xs =>
        have hx : x.start = s.end_ := by
          rw [List.chain'_cons'] at hchd
          exact hchd.1 x (by rw [hr]; rfl)
        rw [List.getD_eq_getElem?_getD, ← List.head?_drop, ← hrest, hr]
        simpa using hx
    have hstep : CovInv (swStep tk cfg sentences structures i st) s.end_ := by
      unfold swStep
      rw [hs]
      dsimp only
      have happend : CovInv (appendPart tk s (hardPart tk cfg s st)) s.end_ :=
        covInv_append tk s _ E hSE hlt (covInv_hard tk cfg s st E hSE hinv)
      have hguard : emptyGuardPart s (appendPart tk s (hardPart tk cfg s st)) =
          appendPart tk s (hardPart tk cfg s st) := by
        unfold emptyGuardPart
        rw [if_neg (by simp [appendPart])]
      rw [hguard]
      refine covInv_soft tk cfg sentences structures i _ s.end_ htile happend
    have hheads : ∀ s0 ∈ rest.head?, s0.start = s.end_ := by
      intro s0 hs0
      rw [List.chain'_cons'] at hchd
      exact hchd.1 s0 hs0
    rw [show swGo tk cfg sentences structures (s :: rest) i st =
        swGo tk cfg sentences structures rest (i + 1) (swStep tk cfg sentences structures i st)
        from rfl, lastEndOr_cons]
    exact covGo tk cfg structures sentences hwf rest (i + 1) _ s.end_ hrest hstep hheads

/-- C7 amended: the chunks' [start_char, end_char) ranges cover every
position up to the end of the LAST SENTENCE SPAN the splitter produces
(instead of the entire text, which fails when the input — e.g. a
whitespace-only text — has a trailing region that the splitter drops). -/
theorem c7_coverage_amended (tk : Tokenizer) (cfg : ChunkConfig) (text : Str)
    (structures : List StructElem) (pageBreaks : List Nat)
    (hvalid : cfg.min_tokens < cfg.max_tokens ∧ cfg.overlap_tokens < cfg.max_tokens) :
    ∀ pos, pos < lastEndOr 0 (splitIntoSentences text) →
      ∃ c ∈ slidingWindowChunks tk cfg text structures pageBreaks,
        c.start_char ≤ pos ∧ pos < c.end_char := by
  intro pos hpos
  have hwf := split_wf text
  have hinv0 : CovInv initState 0 := by
    refine ⟨fun p hp => absurd hp (by omega), fun hne => absurd rfl hne, fun _ => Nat.le_refl 0⟩
  have hhead : ∀ s0 ∈ (splitIntoSentences text).head?, s0.start = 0 := by
    intro s0 hs0
    exact split_head_start text s0 hs0
  have hfin := covGo tk cfg structures (splitIntoSentences text) hwf (splitIntoSentences text)
    0 initState 0 (by simp) hinv0 hhead
  obtain ⟨h1, h2, h3⟩ := hfin
  have hrawcov : rawCover (slidingWindowRaws tk cfg (splitIntoSentences text) structures)
      pos := by
    unfold slidingWindowRaws
    dsimp only
    rcases h1 pos hpos with hc | ⟨hne, ha, hb⟩
    · obtain ⟨r, hr, hra, hrb⟩ := hc
      exact ⟨r, by rw [List.mem_append]; exact Or.inl hr, hra, hrb⟩
    · refine ⟨⟨(swGo tk cfg (splitIntoSentences text) structures (splitIntoSentences text)
          0 initState).current,
        (swGo tk cfg (splitIntoSentences text) structures (splitIntoSentences text)
          0 initState).startChar,
        (swGo tk cfg (splitIntoSentences text) structures (splitIntoSentences text)
          0 initState).index⟩, ?_, ha, hb⟩
      rw [if_pos hne, List.mem_append]
      exact Or.inr (by simp)
  obtain ⟨r, hr, hra, hrb⟩ := hrawcov
  refine ⟨createChunk tk structures pageBreaks (joinTexts r.window) r.index r.startChar
    (windowEnd r.window), ?_, hra, hrb⟩
  unfold slidingWindowChunks
  rw [List.mem_map]
  exact ⟨r, hr, rfl⟩

/-- C7 witness: coverage of a concrete position in a concrete run. -/
theorem c7_coverage_amended_witness :
    (exCfgPlain.min_tokens < exCfgPlain.max_tokens ∧
      exCfgPlain.overlap_tokens < exCfgPlain.max_tokens) ∧
    3 < lastEndOr 0 (splitIntoSentences exTextOverlap) ∧
    ∃ c ∈ slidingWindowChunks nscTok exCfgPlain exTextOverlap [] [],
      c.start_char ≤ 3 ∧ 3 < c.end_char :=
  ⟨by decide, by decide,
   c7_coverage_amended nscTok exCfgPlain exTextOverlap [] [] (by decide) 3 (by decide)⟩

/-! Claim C2. -/

/-- C2 counterexample: on a heading followed by five sentences the
hierarchy pass synthesizes a parent whose token_count is computed from the
truncated-children join WITHOUT the appended ellipsis marker, so its
token_count differs from the tokenizer count of its content field. -/
theorem c2_counterexample :
    ∃ c ∈ chunkText nscTok exCfgPlain exTextHeaded [],
      c.token_count ≠ nscTok.tok c.content := by decide

theorem slidingWindowChunks_token (tk : Tokenizer) (cfg : ChunkConfig) (text : Str)
    (structures : List StructElem) (pageBreaks : List Nat) :
    ∀ c ∈ slidingWindowChunks tk cfg text structures pageBreaks,
      c.token_count = tk.tok c.content := by
  intro c hc
  unfold slidingWindowChunks at hc
  rw [List.mem_map] at hc
  obtain ⟨r, _, hcr⟩ := hc
  rw [← hcr]
  rfl

theorem dictAppend_mem :
    ∀ (d : List (Str × List (Nat × TextChunk))) (key : Str) (v : Nat × TextChunk)
      (sec : Str) (g : List (Nat × TextChunk)) (p : Nat × TextChunk),
      (sec, g) ∈ dictAppend d key v → p ∈ g →
      (∃ g0, (sec, g0) ∈ d ∧ p ∈ g0) ∨ p = v
  | [], key, v, sec, g, p, hg, hp => by
    simp only [dictAppend, List.mem_singleton, Prod.mk.injEq] at hg
    rw [hg.2] at hp
    simp only [List.mem_singleton] at hp
    exact Or.inr hp
  | (k, l) :: rest, key, v, sec, g, p, hg, hp => by
    unfold dictAppend at hg
    by_cases hk : k = key
    · rw [if_pos hk, List.mem_cons] at hg
      rcases hg with hg | hg
      · rw [Prod.mk.injEq] at hg
        rw [hg.2, List.mem_append] at hp
        rcases hp with hp | hp
        · exact Or.inl ⟨l, by simp [hg.1], hp⟩
        · simp only [List.mem_singleton] at hp
          exact Or.inr hp
      · exact Or.inl ⟨g, by simp [hg], hp⟩
    · rw [if_neg hk, List.mem_cons] at hg
      rcases hg with hg | hg
      · rw [Prod.mk.injEq] at hg
        exact Or.inl ⟨g, by simp [hg.1, hg.2], hp⟩
      · rcases dictAppend_mem rest key v sec g p hg hp with ⟨g0, hg0, hp0⟩ | hpv
        · exact Or.inl ⟨g0, by simp [hg0], hp0⟩
        · exact Or.inr hpv

theorem groupGo_mem :
    ∀ (pairs : List (Nat × TextChunk)) (cur : Option Str)
      (d : List (Str × List (Nat × TextChunk))) (sec : Str) (g : List (Nat × TextChunk))
      (p : Nat × TextChunk),
      (sec, g) ∈ groupBySectionGo pairs cur d → p ∈ g →
      (∃ g0, (sec, g0) ∈ d ∧ p ∈ g0) ∨ p ∈ pairs
  | [], cur, d, sec, g, p, hg, hp => Or.inl ⟨g, hg, hp⟩
  | (i, c) :: rest, cur, d, sec, g, p, hg, hp => by
    unfold groupBySectionGo at hg
    have hstep : ∀ (cur2 : Option Str) (key : Str),
        (sec, g) ∈ groupBySectionGo rest cur2 (dictAppend d key (i, c)) →
        (∃ g0, (sec, g0) ∈ d ∧ p ∈ g0) ∨ p ∈ (i, c) :: rest := by
      intro cur2 key hg2
      rcases groupGo_mem rest cur2 (dictAppend d key (i, c)) sec g p hg2 hp with
        ⟨g0, hg0, hp0⟩ | hrest
      · rcases dictAppend_mem d key (i, c) sec g0 p hg0 hp0 with ⟨g1, hg1, hp1⟩ | hpv
        · exact Or.inl ⟨g1, hg1, hp1⟩
        · exact Or.inr (by simp [hpv])
      · exact Or.inr (by simp [hrest])
    cases hsk : sectionKey c with
    | some t =>
      rw [hsk] at hg
      exact hstep (some t) t hg
    | none =>
      rw [hsk] at hg
      cases hcur : cur with
      | some s0 =>
        rw [hcur] at hg
        exact hstep (some s0) s0 hg
      | none =>
        rw [hcur] at hg
        rcases groupGo_mem rest none d sec g p hg hp with ⟨g0, hg0, hp0⟩ | hrest
        · exact Or.inl ⟨g0, hg0, hp0⟩
        · exact Or.inr (by simp [hrest])

theorem groupBySection_mem (chunks : List TextChunk) (sec : Str)
    (g : List (Nat × TextChunk)) (p : Nat × TextChunk)
    (hg : (sec, g) ∈ groupBySection chunks) (hp : p ∈ g) : p.2 ∈ chunks := by
  unfold groupBySection at hg
  rcases groupGo_mem (enumFromIdx 0 chunks) none [] sec g p hg hp with ⟨g0, hg0, _⟩ | hpairs
  · simp at hg0
  · rcases p with ⟨i, x⟩
    exact enumFromIdx_mem chunks 0 i x hpairs

theorem buildHier_shape (tk : Tokenizer) :
    ∀ (groups : List (Str × List (Nat × TextChunk))) (pid : Nat) (c : TextChunk),
      c ∈ buildHier tk groups pid →
      (∃ g ∈ groups, ∃ p ∈ g.2, c.content = (p.2 : TextChunk).content ∧
        c.token_count = p.2.token_count) ∨
      (∃ pt : Str, c.content = pt ++ ellipsisMarker ∧ c.token_count = tk.tok pt)
  | [], _, c, hc => by simp [buildHier] at hc
  | (sec, g) :: rest, pid, c, hc => by
    unfold buildHier at hc
    by_cases hbig : 3 < g.length
    · rw [if_pos hbig] at hc
      rcases List.mem_cons.mp hc with hc | hc
      · subst hc
        exact Or.inr ⟨spaceJoin ((g.take 3).map (fun p => (p.2).content.take 500)),
          by rfl, by rfl⟩
      · rcases List.mem_append.mp hc with hc | hc
        · rw [List.mem_map] at hc
          obtain ⟨p, hp, hpc⟩ := hc
          exact Or.inl ⟨(sec, g), by simp, p, hp, by rw [← hpc]; exact ⟨rfl, rfl⟩⟩
        · rcases buildHier_shape tk rest (pid + 1) c hc with ⟨g0, hg0, hrest⟩ | hpar
          · exact Or.inl ⟨g0, by simp [hg0], hrest⟩
          · exact Or.inr hpar
    · rw [if_neg hbig] at hc
      rcases List.mem_append.mp hc with hc | hc
      · rw [List.mem_map] at hc
        obtain ⟨p, hp, hpc⟩ := hc
        exact Or.inl ⟨(sec, g), by simp, p, hp, by rw [← hpc]; exact ⟨rfl, rfl⟩⟩
      · rcases buildHier_shape tk rest pid c hc with ⟨g0, hg0, hrest⟩ | hpar
        · exact Or.inl ⟨g0, by simp [hg0], hrest⟩
        · exact Or.inr hpar

theorem mutatedView_content (asg : List (Nat × Nat)) (i : Nat) (c : TextChunk) :
    (mutatedView asg i c).content = c.content ∧
    (mutatedView asg i c).token_count = c.token_count ∧
    (mutatedView asg i c).metadata = c.metadata := by
  unfold mutatedView
  cases asg.find? (fun p => p.1 = i) with
  | none => exact ⟨rfl, rfl, rfl⟩
  | some p => exact ⟨rfl, rfl, rfl⟩

theorem hierFold_mem (asg : List (Nat × Nat)) :
    ∀ (pairs : List (Nat × TextChunk)) (acc : List TextChunk) (c : TextChunk),
      c ∈ pairs.foldl
        (fun acc p =>
          let cv := mutatedView asg p.1 p.2
          if cv ∈ acc then acc else acc ++ [cv]) acc →
      c ∈ acc ∨ ∃ p ∈ pairs, c = mutatedView asg p.1 p.2
  | [], acc, c, hc => Or.inl hc
  | p0 :: rest, acc, c, hc => by
    rw [List.foldl_cons] at hc
    rcases hierFold_mem asg rest _ c hc with hacc | ⟨p, hp, hpc⟩
    · dsimp only at hacc
      by_cases hin : mutatedView asg p0.1 p0.2 ∈ acc
      · rw [if_pos hin] at hacc
        exact Or.inl hacc
      · rw [if_neg hin, List.mem_append] at hacc
        rcases hacc with hacc | hacc
        · exact Or.inl hacc
        · simp only [List.mem_singleton] at hacc
          exact Or.inr ⟨p0, by simp, hacc⟩
    · exact Or.inr ⟨p, by simp [hp], hpc⟩

theorem addChunkHierarchy_shape (tk : Tokenizer) (chunks : List TextChunk) :
    ∀ c ∈ addChunkHierarchy tk chunks,
      (∃ c0 ∈ chunks, c.content = c0.content ∧ c.token_count = c0.token_count) ∨
      (∃ pt : Str, c.content = pt ++ ellipsisMarker ∧ c.token_count = tk.tok pt) := by
  intro c hc
  unfold addChunkHierarchy at hc
  dsimp only at hc
  rcases hierFold_mem (bigAssignGo (groupBySection chunks) 0) (enumFromIdx 0 chunks)
      (buildHier tk (groupBySection chunks) 0) c hc with hacc | ⟨p, hp, hpc⟩
  · rcases buildHier_shape tk (groupBySection chunks) 0 c hacc with
      ⟨g, hg, q, hq, hqc⟩ | hpar
    · rcases g with ⟨sec, g⟩
      exact Or.inl ⟨q.2, groupBySection_mem chunks sec g q hg hq, hqc⟩
    · exact Or.inr hpar
  · obtain ⟨h1, h2, _⟩ := mutatedView_content (bigAssignGo (groupBySection chunks) 0) p.1 p.2
    rcases p with ⟨i, x⟩
    exact Or.inl ⟨x, enumFromIdx_mem chunks 0 i x hp, by rw [hpc]; exact ⟨h1, h2⟩⟩

/-- C2 amended: every chunk returned by chunk_text has token_count equal to
the tokenizer count of its content — EXCEPT parent chunks, whose
token_count is the tokenizer count of the content stripped of the trailing
ellipsis marker (the source computes it from the truncated-children join
before appending the marker). -/
theorem c2_token_count_amended (tk : Tokenizer) (cfg : ChunkConfig) (text : Str)
    (pageBreaks : List Nat) :
    ∀ c ∈ chunkText tk cfg text pageBreaks,
      c.token_count = tk.tok c.content ∨
      ∃ pt : Str, c.content = pt ++ ellipsisMarker ∧ c.token_count = tk.tok pt := by
  intro c hc
  unfold chunkText at hc
  dsimp only at hc
  set structures := if cfg.detect_structure then extractStructure text else [] with hstr
  set base := slidingWindowChunks tk cfg text structures pageBreaks with hbase
  set hier := if structures ≠ [] then addChunkHierarchy tk base else base with hhier
  have hhmem : ∀ c0 ∈ hier, c0.token_count = tk.tok c0.content ∨
      ∃ pt : Str, c0.content = pt ++ ellipsisMarker ∧ c0.token_count = tk.tok pt := by
    intro c0 hc0
    rw [hhier] at hc0
    by_cases hs : structures ≠ []
    · rw [if_pos hs] at hc0
      rcases addChunkHierarchy_shape tk base c0 hc0 with ⟨c1, hc1, he1, he2⟩ | hpar
      · rw [he1, he2]
        exact Or.inl (slidingWindowChunks_token tk cfg text structures pageBreaks c1 hc1)
      · exact Or.inr hpar
    · rw [if_neg hs] at hc0
      exact Or.inl (slidingWindowChunks_token tk cfg text structures pageBreaks c0 hc0)
  by_cases hd : cfg.enable_deduplication
  · rw [if_pos hd] at hc
    have := (dedupGo_mem hier [] c hc).1
    exact hhmem c this
  · rw [if_neg hd] at hc
    exact hhmem c hc

/-- C2 witness: a leaf chunk of a concrete run satisfies the exact
token-count equation. -/
theorem c2_token_count_amended_witness :
    createChunk nscTok [] [] (("a b.").toList) 0 0 5 ∈
      chunkText nscTok exCfgPlain exTextOverlap [] ∧
    ((createChunk nscTok [] [] (("a b.").toList) 0 0 5).token_count =
        nscTok.tok (createChunk nscTok [] [] (("a b.").toList) 0 0 5).content ∨
      ∃ pt : Str, (createChunk nscTok [] [] (("a b.").toList) 0 0 5).content =
          pt ++ ellipsisMarker ∧
        (createChunk nscTok [] [] (("a b.").toList) 0 0 5).token_count = nscTok.tok pt) :=
  ⟨by decide, c2_token_count_amended nscTok exCfgPlain exTextOverlap []
    (createChunk nscTok [] [] (("a b.").toList) 0 0 5) (by decide)⟩

/-! Claim C3. -/

/-- C3 counterexample: a chunk with no section title followed by a titled
chunk.  Both sections have at most one chunk, so the claim requires the
output to preserve input order; the builder instead emits the grouped
(titled) chunk first and appends the pre-section chunk at the end. -/
theorem c3_counterexample :
    addChunkHierarchy nscTok [exChunkNoSec, exChunkSecA] = [exChunkSecA, exChunkNoSec] ∧
    [exChunkSecA, exChunkNoSec] ≠ [exChunkNoSec, exChunkSecA] := by decide

theorem buildHier_block_infix (tk : Tokenizer) :
    ∀ (groups : List (Str × List (Nat × TextChunk))) (pid0 : Nat) (sec : Str)
      (g : List (Nat × TextChunk)), (sec, g) ∈ groups →
      ∃ pid, List.IsInfix
        (if 3 < g.length then
          mkParent tk sec g pid :: g.map (fun p => demote pid p.2)
        else g.map (fun p => p.2))
        (buildHier tk groups pid0)
  | [], _, _, _, hg => by simp at hg
  | (sec0, g0) :: rest, pid0, sec, g, hg => by
    rcases List.mem_cons.mp hg with hg | hg
    · rw [Prod.mk.injEq] at hg
      obtain ⟨h1, h2⟩ := hg
      subst h1
      subst h2
      refine ⟨pid0, ?_⟩
      unfold buildHier
      by_cases hbig : 3 < g.length
      · rw [if_pos hbig, if_pos hbig]
        exact ⟨[], buildHier tk rest (pid0 + 1), by simp⟩
      · rw [if_neg hbig, if_neg hbig]
        exact ⟨[], buildHier tk rest pid0, by simp⟩
    · have hnext : ∀ pid1, ∃ pid, List.IsInfix
          (if 3 < g.length then
            mkParent tk sec g pid :: g.map (fun p => demote pid p.2)
          else g.map (fun p => p.2))
          (buildHier tk rest pid1) := fun pid1 =>
        buildHier_block_infix tk rest pid1 sec g hg
      unfold buildHier
      by_cases hbig : 3 < g0.length
      · rw [if_pos hbig]
        obtain ⟨pid, t, u, htu⟩ := hnext (pid0 + 1)
        exact ⟨pid, (mkParent tk sec0 g0 pid0 :: g0.map (fun p => demote pid0 p.2)) ++ t, u,
          by rw [← htu]; simp⟩
      · rw [if_neg hbig]
        obtain ⟨pid, t, u, htu⟩ := hnext pid0
        exact ⟨pid, g0.map (fun p => p.2) ++ t, u, by rw [← htu]; simp⟩

theorem hierFold_extends (asg : List (Nat × Nat)) :
    ∀ (pairs : List (Nat × TextChunk)) (acc : List TextChunk),
      ∃ extra, pairs.foldl
        (fun acc p =>
          let cv := mutatedView asg p.1 p.2
          if cv ∈ acc then acc else acc ++ [cv]) acc = acc ++ extra
  | [], acc => ⟨[], by simp⟩
  | p0 :: rest, acc => by
    rw [List.foldl_cons]
    dsimp only
    by_cases hin : mutatedView asg p0.1 p0.2 ∈ acc
    · rw [if_pos hin]
      exact hierFold_extends asg rest acc
    · rw [if_neg hin]
      obtain ⟨extra, hex⟩ := hierFold_extends asg rest (acc ++ [mutatedView asg p0.1 p0.2])
      exact ⟨[mutatedView asg p0.1 p0.2] ++ extra, by rw [hex, List.append_assoc]⟩

theorem hierFold_countP (asg : List (Nat × Nat)) (P : TextChunk → Bool) :
    ∀ (pairs : List (Nat × TextChunk)) (acc : List TextChunk),
      (∀ p ∈ pairs, P (mutatedView asg p.1 p.2) = false) →
      (pairs.foldl
        (fun acc p =>
          let cv := mutatedView asg p.1 p.2
          if cv ∈ acc then acc else acc ++ [cv]) acc).countP P = acc.countP P
  | [], acc, _ => rfl
  | p0 :: rest, acc, h => by
    rw [List.foldl_cons]
    dsimp only
    have hrest : ∀ p ∈ rest, P (mutatedView asg p.1 p.2) = false :=
      fun p hp => h p (by simp [hp])
    by_cases hin : mutatedView asg p0.1 p0.2 ∈ acc
    · rw [if_pos hin]
      exact hierFold_countP asg P rest acc hrest
    · rw [if_neg hin]
      rw [hierFold_countP asg P rest (acc ++ [mutatedView asg p0.1 p0.2]) hrest]
      rw [List.countP_append]
      have h0 := h p0 (by simp)
      simp [List.countP_cons, h0]

theorem buildHier_countP (tk : Tokenizer) :
    ∀ (groups : List (Str × List (Nat × TextChunk))) (pid : Nat),
      (∀ gg ∈ groups, ∀ p ∈ gg.2, (p.2 : TextChunk).metadata.isParentMeta = false) →
      (buildHier tk groups pid).countP (fun c => c.metadata.isParentMeta) =
        groups.countP (fun gg => decide (3 < gg.2.length))
  | [], _, _ => rfl
  | (sec, g) :: rest, pid, h => by
    have hg : ∀ p ∈ g, (p.2 : TextChunk).metadata.isParentMeta = false :=
      fun p hp => h (sec, g) (by simp) p hp
    have hrest : ∀ gg ∈ rest, ∀ p ∈ gg.2, (p.2 : TextChunk).metadata.isParentMeta = false :=
      fun gg hgg p hp => h gg (by simp [hgg]) p hp
    unfold buildHier
    by_cases hbig : 3 < g.length
    · rw [if_pos hbig]
      have hdem : (g.map (fun p => demote pid p.2)).countP
          (fun c => c.metadata.isParentMeta) = 0 := by
        rw [List.countP_eq_zero]
        intro c hc
        rw [List.mem_map] at hc
        obtain ⟨p, hp, hpc⟩ := hc
        rw [← hpc]
        simp [demote, hg p hp]
      rw [List.countP_append, List.countP_cons, hdem,
        buildHier_countP tk rest (pid + 1) hrest]
      have hpar : (mkParent tk sec g pid).metadata.isParentMeta = true := rfl
      rw [List.countP_cons]
      simp [hpar, hbig]
      omega
    · rw [if_neg hbig]
      have hplaing : (g.map (fun p => (p.2 : TextChunk))).countP
          (fun c => c.metadata.isParentMeta) = 0 := by
        rw [List.countP_eq_zero]
        intro c hc
        rw [List.mem_map] at hc
        obtain ⟨p, hp, hpc⟩ := hc
        rw [← hpc]
        simp [hg p hp]
      rw [List.countP_append, hplaing, buildHier_countP tk rest pid hrest]
      rw [List.countP_cons]
      simp [hbig]

/-- C3 amended: the builder groups chunks by carried-forward section title;
each section with at most 3 chunks passes through unmodified as a
contiguous, order-preserving block of the output, each section with more
than 3 chunks appears as a contiguous block of exactly one synthesized
parent followed by its demoted children in order, and the number of parent
chunks equals the number of such large sections — but, contrary to the
claim, the output reorders chunks across sections: sections become
contiguous in first-appearance order and chunks before the first titled
chunk move to the end. -/
theorem c3_hierarchy_amended (tk : Tokenizer) (chunks : List TextChunk)
    (hplain : ∀ c ∈ chunks, c.metadata.isParentMeta = false) :
    (∀ sec g, (sec, g) ∈ groupBySection chunks →
      (g.length ≤ 3 → List.IsInfix (g.map (fun p => (p.2 : TextChunk)))
        (addChunkHierarchy tk chunks)) ∧
      (3 < g.length → ∃ pid, List.IsInfix
        (mkParent tk sec g pid :: g.map (fun p => demote pid p.2))
        (addChunkHierarchy tk chunks))) ∧
    (addChunkHierarchy tk chunks).countP (fun c => c.metadata.isParentMeta) =
      (groupBySection chunks).countP (fun gg => decide (3 < gg.2.length)) := by
  have hgplain : ∀ gg ∈ groupBySection chunks, ∀ p ∈ gg.2,
      (p.2 : TextChunk).metadata.isParentMeta = false := by
    intro gg hgg p hp
    rcases gg with ⟨sec, g⟩
    exact hplain p.2 (groupBySection_mem chunks sec g p hgg hp)
  have hout : ∃ extra, addChunkHierarchy tk chunks =
      buildHier tk (groupBySection chunks) 0 ++ extra := by
    unfold addChunkHierarchy
    dsimp only
    exact hierFold_extends (bigAssignGo (groupBySection chunks) 0) (enumFromIdx 0 chunks)
      (buildHier tk (groupBySection chunks) 0)
  constructor
  · intro sec g hg
    obtain ⟨extra, hex⟩ := hout
    constructor
    · intro hsmall
      obtain ⟨pid, hinf⟩ := buildHier_block_infix tk (groupBySection chunks) 0 sec g hg
      rw [if_neg (by omega)] at hinf
      rw [hex]
      exact hinf.trans ⟨[], extra, rfl⟩
    · intro hbig
      obtain ⟨pid, hinf⟩ := buildHier_block_infix tk (groupBySection chunks) 0 sec g hg
      rw [if_pos hbig] at hinf
      rw [hex]
      exact ⟨pid, hinf.trans ⟨[], extra, rfl⟩⟩
  · unfold addChunkHierarchy
    dsimp only
    rw [hierFold_countP (bigAssignGo (groupBySection chunks) 0)
      (fun c => c.metadata.isParentMeta) (enumFromIdx 0 chunks)
      (buildHier tk (groupBySection chunks) 0) ?_]
    · exact buildHier_countP tk (groupBySection chunks) 0 hgplain
    · intro p hp
      rcases p with ⟨i, x⟩
      obtain ⟨_, _, hmeta⟩ := mutatedView_content (bigAssignGo (groupBySection chunks) 0) i x
      dsimp only
      rw [hmeta]
      exact hplain x (enumFromIdx_mem chunks 0 i x hp)

/-- Four titled chunks in one section, for the C3 witness. -/
def exChunksBig : List TextChunk :=
  [{ content := ['a'], chunk_index := 0, token_count := 1, start_char := 0, end_char := 1,
     section_title := some ['A'], chunk_hash := ['a'] },
   { content := ['b'], chunk_index := 1, token_count := 1, start_char := 1, end_char := 2,
     section_title := some ['A'], chunk_hash := ['b'] },
   { content := ['c'], chunk_index := 2, token_count := 1, start_char := 2, end_char := 3,
     section_title := some ['A'], chunk_hash := ['c'] },
   { content := ['d'], chunk_index := 3, token_count := 1, start_char := 3, end_char := 4,
     section_title := some ['A'], chunk_hash := ['d'] }]

/-- C3 witness: the amended contract applied to a concrete four-chunk
section (exactly one parent is synthesized). -/
theorem c3_hierarchy_amended_witness :
    (∀ c ∈ exChunksBig, c.metadata.isParentMeta = false) ∧
    (addChunkHierarchy nscTok exChunksBig).countP (fun c => c.metadata.isParentMeta) =
      (groupBySection exChunksBig).countP (fun gg => decide (3 < gg.2.length)) :=
  ⟨by decide, (c3_hierarchy_amended nscTok exChunksBig (by decide)).2⟩

end Tldrify
